import Mathlib

/-!
# Shallow embedding of `mem2.c`

The allocator keeps three globals (`memHasInit`, `policyType`, `head`) and an
intrusive free list stored inside one region obtained from `mmap`.

Modelling decisions, all taken from the source:

* Target data model is ILP32 (the source casts node pointers to `int` in
  `mergeNode` and prints them with `%d`): `int` and pointers are 32 bits wide,
  `sizeof(node_t) = sizeof(header) = 8`, the `size` field of both structs is at
  offset 0, and `node_t.next` / `header.valCheck` are both at offset 4.
* Memory is a store `Int → Int`: the cell at byte address `a` holds the 4-byte
  object whose first byte is `a`.  A value read as `int` is normalised with
  `toInt`, a value read as a pointer or as `size_t` with `toUInt`.  Objects
  whose addresses differ by 1, 2 or 3 would share bytes; the store keeps them
  apart, so it is exact on every run in which no two accessed objects overlap
  partially (in particular whenever all accessed addresses are multiples of 4).
* C variables of type `int` range over `[-2^31, 2^31)`, pointers and `size_t`
  over `[0, 2^32)`; arithmetic wraps modulo `2^32`.
* Loops receive fuel; running out of fuel is reported as `Fault.fuel`.
  A failed `assert` is `Fault.assertion`; dereferencing `NULL` is
  `Fault.nullDeref`.
* `getpagesize()` and the result of `mmap` are parameters of `Mem_Init`; a
  successful `mmap` of `/dev/zero` yields a zero-filled region.
-/

namespace Mem2

/-! ## Constants and machine integers -/

/-- The validity tag: `#define MAGIC 1234567`. -/
def MAGIC : Int := 1234567

/-- Size of `header` (two `int` fields). -/
def sizeofHeader : Int := 8

/-- Size of `node_t` (an `int` and a pointer, ILP32). -/
def sizeofNode : Int := 8

/-- Policy selector for best fit, as listed in the source comment. -/
def P_BESTFIT : Int := 1

/-- Policy selector for worst fit, as listed in the source comment. -/
def P_WORSTFIT : Int := 2

/-- Policy selector for first fit, as listed in the source comment. -/
def P_FIRSTFIT : Int := 3

/-- The failure value of `mmap`, `(void *) -1`. -/
def MAP_FAILED : Int := 4294967295

/-- Conversion to a 32-bit unsigned value (`size_t`, pointers). -/
def toUInt (x : Int) : Int := x % 4294967296

/-- Conversion to a 32-bit two's complement `int`. -/
def toInt (x : Int) : Int := (x + 2147483648) % 4294967296 - 2147483648

/-! ## Memory and allocator state -/

/-- Word store indexed by byte address. -/
abbrev Memory := Int → Int

/-- Write of one 4-byte object at address `a`. -/
def store (m : Memory) (a v : Int) : Memory := fun x => if x = a then v else m x

/-- Read of the `size` field (offset 0) of a `node_t` or `header` at `p`. -/
def getSize (m : Memory) (p : Int) : Int := toInt (m p)

/-- Read of the `next` field (offset 4) of the `node_t` at `p`. -/
def getNext (m : Memory) (p : Int) : Int := toUInt (m (toUInt (p + 4)))

/-- Read of the `valCheck` field (offset 4) of the `header` at `p`. -/
def getValCheck (m : Memory) (p : Int) : Int := toInt (m (toUInt (p + 4)))

/-- Write of the `size` field of the struct at `p`. -/
def setSize (m : Memory) (p v : Int) : Memory := store m p v

/-- Write of the `next` field of the `node_t` at `p`. -/
def setNext (m : Memory) (p v : Int) : Memory := store m (toUInt (p + 4)) v

/-- Write of the `valCheck` field of the `header` at `p`. -/
def setValCheck (m : Memory) (p v : Int) : Memory := store m (toUInt (p + 4)) v

/-- The globals of `mem2.c` together with the memory they point into. -/
structure State where
  memHasInit : Int
  policyType : Int
  head : Int
  mem : Memory

/-- Program start: the three globals are zero-initialised. -/
def State.start : State :=
  { memHasInit := 0, policyType := 0, head := 0, mem := fun _ => 0 }

/-- Ways in which a call fails to return. -/
inductive Fault where
  | assertion
  | nullDeref
  | fuel
  deriving DecidableEq, Repr

/-! ## `Mem_Init` -/

/-- Embedding of `Mem_Init`; `page` is `getpagesize()`, `mmapResult` is the
pointer returned by `mmap`. -/
def Mem_Init (page mmapResult : Int) (s : State) (region_size policy : Int) :
    Int × State :=
  if region_size ≤ 0 ∨ policy > 3 ∨ policy < 1 ∨ s.memHasInit ≠ 0 then (-1, s)
  else
    let region_size :=
      if region_size.tmod page ≠ 0 then
        toInt (region_size + toInt (page - region_size.tmod page))
      else region_size
    if mmapResult = MAP_FAILED then (-1, { s with head := MAP_FAILED })
    else
      let m0 : Memory := fun a =>
        if mmapResult ≤ a ∧ a < mmapResult + toUInt region_size then 0 else s.mem a
      let m1 := setSize m0 mmapResult (toInt (toUInt region_size - sizeofNode))
      let m2 := setNext m1 mmapResult 0
      (0, { memHasInit := 1, policyType := policy, head := mmapResult, mem := m2 })

/-! ## `split` and `endOfNode` -/

/-- Embedding of `split(&nodep, size)`: returns the new value of `*nodep` and
the memory after the writes, in source order. -/
def split (m : Memory) (nodep size : Int) : Int × Memory :=
  if nodep = 0 then (nodep, m)
  else
    let p := nodep
    let nodep := toUInt (nodep + toUInt (toUInt size + sizeofHeader))
    let m1 := setSize m nodep (toInt (toUInt (toInt (getSize m p - size)) - sizeofHeader))
    let m2 := setNext m1 nodep (getNext m1 p)
    let m3 := setSize m2 p size
    let m4 := setValCheck m3 p MAGIC
    (nodep, m4)

/-- Embedding of `endOfNode`. -/
def endOfNode (m : Memory) (nodep : Int) : Int :=
  toUInt (toUInt (nodep + getSize m nodep) + sizeofNode)

/-! ## `Mem_Alloc` -/

/-- The rounding of the request to a multiple of 4 at the top of `Mem_Alloc`. -/
def roundUp4 (size : Int) : Int :=
  if size.tmod 4 ≠ 0 then toInt (size + (4 - size.tmod 4)) else size

/-- The `while` loop of `case P_BESTFIT`; yields
`(nodeMinmax, nodePrevMinmax, match)`. -/
def bestFitLoop (m : Memory) (size : Int) :
    Nat → Int → Int → Int → Int → Bool → Except Fault (Int × Int × Bool)
  | 0, _, _, _, _, _ => .error .fuel
  | fuel + 1, nodeIt, nodePrev, nodeMinmax, nodePrevMinmax, found =>
    if nodeIt = 0 then .ok (nodeMinmax, nodePrevMinmax, found)
    else if getSize m nodeIt > getSize m nodeMinmax ∧
        toUInt (size + sizeofHeader) ≤ toUInt (getSize m nodeIt) then
      bestFitLoop m size fuel (getNext m nodeIt) nodeIt nodeIt nodePrev true
    else
      bestFitLoop m size fuel (getNext m nodeIt) nodeIt nodeMinmax nodePrevMinmax found

/-- The `while` loop of `case P_WORSTFIT`; yields
`(nodeMinmax, nodePrevMinmax, match)`. -/
def worstFitLoop (m : Memory) (size : Int) :
    Nat → Int → Int → Int → Int → Bool → Except Fault (Int × Int × Bool)
  | 0, _, _, _, _, _ => .error .fuel
  | fuel + 1, nodeIt, nodePrev, nodeMinmax, nodePrevMinmax, found =>
    if nodeIt = 0 then .ok (nodeMinmax, nodePrevMinmax, found)
    else if getSize m nodeIt < getSize m nodeMinmax ∧
        toUInt (size + sizeofHeader) ≤ toUInt (getSize m nodeIt) then
      worstFitLoop m size fuel (getNext m nodeIt) nodeIt nodeIt nodePrev true
    else
      worstFitLoop m size fuel (getNext m nodeIt) nodeIt nodeMinmax nodePrevMinmax found

/-- The tail shared by `case P_BESTFIT` and `case P_WORSTFIT`: split the chosen
node and redirect `head` or the predecessor to the remainder. -/
def carve (s : State) (size nodeMinmax nodePrevMinmax : Int) : Int × State :=
  let (nodeMinmax, m) := split s.mem nodeMinmax size
  let ptr := toUInt (nodeMinmax - size)
  if nodePrevMinmax = 0 then (ptr, { s with head := nodeMinmax, mem := m })
  else (ptr, { s with mem := setNext m nodePrevMinmax nodeMinmax })

/-- The `while` loop of `case P_FIRSTFIT`, including the early return. -/
def firstFitLoop (s : State) (size : Int) :
    Nat → Int → Int → Except Fault (Int × State)
  | 0, _, _ => .error .fuel
  | fuel + 1, nodeIt, nodePrev =>
    if nodeIt = 0 then .ok (0, s)
    else if toUInt (size + sizeofHeader) ≥ toUInt (getSize s.mem nodeIt) then
      .ok (carve s size nodeIt nodePrev)
    else firstFitLoop s size fuel (getNext s.mem nodeIt) nodeIt

/-- Embedding of `Mem_Alloc`; the returned `Int` is the pointer, `0` for
`NULL`. -/
def Mem_Alloc (fuel : Nat) (s : State) (size : Int) : Except Fault (Int × State) :=
  if s.memHasInit ≠ 1 then .error .assertion
  else if ¬ (s.policyType > 0 ∧ s.policyType < 4) then .error .assertion
  else if ¬ (size > 0) then .error .assertion
  else
    let size := roundUp4 size
    if s.head ≠ 0 ∧ getNext s.mem s.head = 0 then
      if toUInt (size + sizeofHeader) > toUInt (getSize s.mem s.head) then .ok (0, s)
      else
        let (h, m) := split s.mem s.head size
        .ok (toUInt (h - size), { s with head := h, mem := m })
    else
      let nodeIt := s.head
      if s.policyType = P_BESTFIT then
        if nodeIt = 0 then .error .nullDeref
        else
          let found := decide (toUInt (size + sizeofHeader) ≤ toUInt (getSize s.mem nodeIt))
          match bestFitLoop s.mem size fuel nodeIt 0 s.head 0 found with
          | .error e => .error e
          | .ok (nodeMinmax, nodePrevMinmax, found) =>
            if ¬ found then .ok (0, s)
            else .ok (carve s size nodeMinmax nodePrevMinmax)
      else if s.policyType = P_WORSTFIT then
        if nodeIt = 0 then .error .nullDeref
        else
          let found := decide (toUInt (size + sizeofHeader) ≤ toUInt (getSize s.mem nodeIt))
          match worstFitLoop s.mem size fuel nodeIt 0 s.head 0 found with
          | .error e => .error e
          | .ok (nodeMinmax, nodePrevMinmax, found) =>
            if ¬ found then .ok (0, s)
            else .ok (carve s size nodeMinmax nodePrevMinmax)
      else if s.policyType = P_FIRSTFIT then
        firstFitLoop s size fuel nodeIt 0
      else .ok (0, s)

/-! ## `insertNode`, `mergeNode`, `Mem_Free` -/

/-- The `while` loop of `insertNode`; yields `(prev, nextNode)`. -/
def insertLoop (m : Memory) (inNode : Int) :
    Nat → Int → Int → Except Fault (Int × Int)
  | 0, _, _ => .error .fuel
  | fuel + 1, prev, nextNode =>
    if nextNode ≠ 0 ∧ nextNode ≥ inNode then
      insertLoop m inNode fuel nextNode (getNext m nextNode)
    else .ok (prev, nextNode)

/-- Embedding of `insertNode`. -/
def insertNode (fuel : Nat) (s : State) (inNode : Int) : Except Fault State :=
  match insertLoop s.mem inNode fuel 0 s.head with
  | .error e => .error e
  | .ok (prev, nextNode) =>
    if nextNode = 0 then
      if prev = 0 then .error .nullDeref
      else .ok { s with mem := setNext s.mem prev inNode }
    else if prev = 0 then
      .ok { s with head := inNode, mem := setNext s.mem inNode s.head }
    else
      let m1 := setNext s.mem inNode (getNext s.mem prev)
      .ok { s with mem := setNext m1 prev inNode }

/-- The `while (nextN != curr)` loop of `mergeNode`; yields `prevN`. -/
def findPrevLoop (m : Memory) (curr : Int) : Nat → Int → Int → Except Fault Int
  | 0, _, _ => .error .fuel
  | fuel + 1, prevN, nextN =>
    if nextN ≠ curr then
      if nextN = 0 then .error .nullDeref
      else findPrevLoop m curr fuel nextN (getNext m nextN)
    else .ok prevN

/-- Embedding of `mergeNode(&inNode)`: yields the return value, the new value
of `*inNode` and the new state. -/
def mergeNode (fuel : Nat) (s : State) (inNode : Int) :
    Except Fault (Int × Int × State) :=
  let curr := inNode
  if curr = 0 then .error .nullDeref
  else if toInt (toInt curr - getSize s.mem curr) = toInt (getNext s.mem curr) then
    let nx := getNext s.mem curr
    if nx = 0 then .error .nullDeref
    else
      let m1 := setSize s.mem curr (toInt (getSize s.mem curr + getSize s.mem nx))
      let m2 := setNext m1 curr (getNext m1 (getNext m1 curr))
      .ok (1, inNode, { s with mem := m2 })
  else
    match findPrevLoop s.mem curr fuel 0 s.head with
    | .error e => .error e
    | .ok prevN =>
      if toInt prevN = toInt (toInt curr - getSize s.mem curr) then
        if prevN = 0 then .error .nullDeref
        else
          let m1 := setSize s.mem prevN (toInt (getSize s.mem curr + getSize s.mem prevN))
          let m2 := setNext m1 prevN (getNext m1 curr)
          .ok (1, prevN, { s with mem := m2 })
      else .ok (0, inNode, s)

/-- The `while (merge)` loop of `Mem_Free`. -/
def mergeLoop (inner : Nat) : Nat → State → Int → Except Fault State
  | 0, _, _ => .error .fuel
  | fuel + 1, s, nptr =>
    match mergeNode inner s nptr with
    | .error e => .error e
    | .ok (merge, nptr, s) =>
      if merge ≠ 0 then mergeLoop inner fuel s nptr else .ok s

/-- Embedding of `Mem_Free`. -/
def Mem_Free (fuel : Nat) (s : State) (ptr : Int) : Except Fault (Int × State) :=
  if ptr = 0 then .ok (-1, s)
  else if ¬ (s.memHasInit = 1 ∨ s.head ≠ 0) then .error .assertion
  else
    let val := toUInt (ptr - sizeofHeader)
    if getValCheck s.mem val ≠ MAGIC then .ok (-1, s)
    else
      let nptr := toUInt (ptr - sizeofHeader)
      let m1 := setSize s.mem nptr (toInt (toUInt (getSize s.mem val) + sizeofHeader))
      let m2 := setNext m1 nptr 0
      match insertNode fuel { s with mem := m2 } nptr with
      | .error e => .error e
      | .ok s1 =>
        match mergeLoop fuel fuel s1 nptr with
        | .error e => .error e
        | .ok s2 => .ok (0, s2)

/-! ## Observations on a state -/

/-- The free list as the sequence of `(address, size)` pairs met by following
`next` from `p`; `none` when the walk does not reach `NULL` within the fuel. -/
def freeList (m : Memory) : Nat → Int → Option (List (Int × Int))
  | 0, _ => none
  | fuel + 1, p =>
    if p = 0 then some []
    else (freeList m fuel (getNext m p)).map (fun l => (p, getSize m p) :: l)

/-- A store performed by the caller of the allocator (into memory it owns). -/
def userStore (s : State) (a v : Int) : State := { s with mem := store s.mem a v }

/-! ## Client runs -/

/-- One step of a client program. -/
inductive Call where
  | alloc (size : Int)
  | free (ptr : Int)
  | write (addr value : Int)

/-- Bookkeeping of a client run: the allocator state, the values returned by the
calls so far, the blocks handed out and not yet released (pointer and rounded
size), and whether every `free` so far was given a pointer that was allocated
at that moment and every `write` stayed inside an allocated payload. -/
structure Run where
  state : State
  results : List Int
  live : List (Int × Int)
  disciplined : Bool

/-- Effect of one call on a run. -/
def stepCall (fuel : Nat) (r : Run) : Call → Except Fault Run
  | .alloc n =>
    match Mem_Alloc fuel r.state n with
    | .error e => .error e
    | .ok (p, s) =>
      .ok { r with state := s, results := r.results ++ [p],
                   live := if p = 0 then r.live else (p, roundUp4 n) :: r.live }
  | .free ptr =>
    match Mem_Free fuel r.state ptr with
    | .error e => .error e
    | .ok (v, s) =>
      .ok { state := s, results := r.results ++ [v],
            live := if v = 0 then r.live.filter (fun b => b.1 ≠ ptr) else r.live,
            disciplined := r.disciplined && r.live.any (fun b => b.1 = ptr) }
  | .write a v =>
    .ok { r with state := userStore r.state a v,
                 disciplined := r.disciplined &&
                   r.live.any (fun b => b.1 ≤ a ∧ a + 4 ≤ b.1 + b.2) }

/-- A sequence of calls, left to right. -/
def runCalls (fuel : Nat) (r : Run) : List Call → Except Fault Run
  | [] => .ok r
  | c :: cs =>
    match stepCall fuel r c with
    | .error e => .error e
    | .ok r1 => runCalls fuel r1 cs

/-- The run that starts right after `Mem_Init(region_size, policy)` succeeded
with page size 4096 and the region placed at `base`. -/
def afterInit (base region_size policy : Int) : Run :=
  { state := (Mem_Init 4096 base State.start region_size policy).2,
    results := [], live := [], disciplined := true }

/-- What is observed of a run: return values, discipline flag, live blocks and
the free list as `(address, size)` pairs (`none` when following `next` from
`head` does not reach `NULL`). -/
structure Observation where
  results : List Int
  disciplined : Bool
  live : List (Int × Int)
  freeNodes : Option (List (Int × Int))
  deriving DecidableEq, Repr

/-- Observation of a run that returned. -/
def observe (r : Except Fault Run) : Option Observation :=
  r.toOption.map fun x =>
    ⟨x.results, x.disciplined, x.live, freeList x.state.mem 64 x.state.head⟩

/-- Span of a free node `(address, size)`: its metadata followed by `size`
free bytes, as a half-open interval. -/
def nodeSpan (n : Int × Int) : Int × Int := (n.1, n.1 + sizeofNode + n.2)

/-- Span of a live block `(pointer, size)`: header followed by the payload. -/
def blockSpan (b : Int × Int) : Int × Int := (b.1 - sizeofHeader, b.1 + b.2)

/-- Two half-open intervals share no byte. -/
def spanDisjoint (a b : Int × Int) : Prop := a.2 ≤ b.1 ∨ b.2 ≤ a.1

instance : DecidableRel spanDisjoint := fun a b => by
  unfold spanDisjoint; infer_instance

/-- All spans of a run: those of the free nodes, then those of the live
blocks. -/
def allSpans (r : Run) : Option (List (Int × Int)) :=
  (freeList r.state.mem 64 r.state.head).map fun l =>
    l.map nodeSpan ++ r.live.map blockSpan

/-- Some free node of the list ends exactly where another one begins. -/
def hasAdjacentNodes (l : List (Int × Int)) : Prop :=
  ∃ x ∈ l, ∃ y ∈ l, (nodeSpan x).2 = y.1

instance (l : List (Int × Int)) : Decidable (hasAdjacentNodes l) := by
  unfold hasAdjacentNodes; infer_instance

/-- A typical page-aligned region base of a 32-bit process. -/
def base : Int := 1073741824

/-- A page-aligned region base below the value of `MAGIC`. -/
def baseNearMagic : Int := 1232896

/-- A page-aligned region base in the upper half of the address space. -/
def highBase : Int := 3086811136

/-- The state reached under policy 2 on a fresh 4096-byte region by
`p = Mem_Alloc(100)`, `Mem_Free(p)`, `Mem_Alloc(100)` (the start state should
one of the calls not return). -/
def cyclicState : State :=
  match runCalls 16 (afterInit base 4096 P_WORSTFIT)
      [.alloc 100, .free (base + 8), .alloc 100] with
  | .ok r => r.state
  | .error _ => State.start

/-- Bytes taken by a list of blocks `(pointer, size)`: each payload plus one
header. -/
def totalBlocks : List (Int × Int) → Int
  | [] => 0
  | b :: bs => b.2 + sizeofHeader + totalBlocks bs

/-- The blocks, newest first, lie back to back from `B` upwards: each pointer
is `B`, plus the bytes taken by the blocks handed out before it, plus one
header. -/
def Stacked (B : Int) : List (Int × Int) → Prop
  | [] => True
  | b :: bs => b.1 = B + totalBlocks bs + sizeofHeader ∧ Stacked B bs

/-- The payload range `[ptr, ptr + size)` of a block. -/
def payload (b : Int × Int) : Int × Int := (b.1, b.1 + b.2)

/-- What holds of a run that started on a fresh region `[B, B + R)` and made
only `Mem_Alloc` calls. -/
structure AllocOnly (B R : Int) (run : Run) : Prop where
  init : run.state.memHasInit = 1
  policy : run.state.policyType = 1 ∨ run.state.policyType = 2 ∨ run.state.policyType = 3
  head : run.state.head = B + totalBlocks run.live
  next : getNext run.state.mem run.state.head = 0
  size : getSize run.state.mem run.state.head = R - sizeofNode - totalBlocks run.live
  room : 0 ≤ R - sizeofNode - totalBlocks run.live
  stacked : Stacked B run.live
  sizes : ∀ b ∈ run.live, 4 ≤ b.2 ∧ 4 ∣ b.2
  returned : run.results.filter (fun p => decide (p ≠ 0)) = (run.live.map Prod.fst).reverse
  headers : ∀ b ∈ run.live, getSize run.state.mem (b.1 - sizeofHeader) = b.2
    ∧ getValCheck run.state.mem (b.1 - sizeofHeader) = MAGIC
  disc : run.disciplined = true

/-- Following `next` from `p` meets exactly the nodes `l`, in this order, and
then arrives at `q`. -/
def IsSeg (m : Memory) : Int → List Int → Int → Prop
  | p, [], q => p = q
  | p, x :: xs, q => p = x ∧ x ≠ 0 ∧ IsSeg m (getNext m x) xs q

instance decIsSeg (m : Memory) : ∀ (l : List Int) (p q : Int), Decidable (IsSeg m p l q)
  | [], p, q => inferInstanceAs (Decidable (p = q))
  | x :: xs, p, q =>
    have := decIsSeg m xs (getNext m x) q
    inferInstanceAs (Decidable (p = x ∧ x ≠ 0 ∧ IsSeg m (getNext m x) xs q))

/-- The free list starting at `p` consists of the nodes `l` and ends with
`NULL`. -/
def IsChain (m : Memory) (p : Int) (l : List Int) : Prop := IsSeg m p l 0

instance (m : Memory) (p : Int) (l : List Int) : Decidable (IsChain m p l) :=
  decIsSeg m l p 0

/-- Last element of `l`, or `d` when `l` is empty. -/
def lastOr (d : Int) : List Int → Int
  | [] => d
  | x :: xs => lastOr x xs

/-- Node addresses that leave room for the two fields inside the 32-bit
address space. -/
def InRange (l : List Int) : Prop := ∀ x ∈ l, 0 < x ∧ x + 4 < 4294967296

instance (l : List Int) : Decidable (InRange l) := by
  unfold InRange; infer_instance

/-- Addresses strictly decreasing along the list. -/
def Decreasing (l : List Int) : Prop := l.Pairwise (fun a b => b < a)

instance (l : List Int) : Decidable (Decreasing l) := by
  unfold Decreasing; infer_instance

/-- No node of the list starts 4 bytes above another one, so that no `size`
field is the `next` field of another node. -/
def Separated (l : List Int) : Prop := ∀ x ∈ l, ∀ y ∈ l, x ≠ y + 4

instance (l : List Int) : Decidable (Separated l) := by
  unfold Separated; infer_instance

/-- Sum of the `size` fields of the nodes `l`. -/
def sumSizes (m : Memory) : List Int → Int
  | [] => 0
  | x :: xs => getSize m x + sumSizes m xs

/-- The address `x` is where a block of `blocks` starts (the address of its
header), or the address right after the stack of blocks. -/
def IsStart (B : Int) (blocks : List (Int × Int)) (x : Int) : Prop :=
  x = B + totalBlocks blocks ∨ ∃ b ∈ blocks, x = b.1 - sizeofHeader

/-- What holds of a run that made allocations on a fresh region at `B`, which
handed out the stack `blocks`, and then released some of these blocks: the free
list is the node right after the stack followed by the nodes `fl`. -/
structure FreePhase (B : Int) (blocks : List (Int × Int)) (run : Run) (fl : List Int) :
    Prop where
  init : run.state.memHasInit = 1
  head : run.state.head = B + totalBlocks blocks
  chain : IsChain run.state.mem run.state.head ((B + totalBlocks blocks) :: fl)
  dec : Decreasing ((B + totalBlocks blocks) :: fl)
  sub : ∀ b ∈ run.live, b ∈ blocks
  strict : run.live.Pairwise (fun a b => b.1 < a.1)
  freed : ∀ x ∈ fl, (∃ b ∈ blocks, x = b.1 - sizeofHeader)
    ∧ ∀ c ∈ run.live, c.1 - sizeofHeader ≠ x
  headers : ∀ b ∈ run.live, getSize run.state.mem (b.1 - sizeofHeader) = b.2
    ∧ getValCheck run.state.mem (b.1 - sizeofHeader) = MAGIC
  pos : ∀ x ∈ fl, 0 < getSize run.state.mem x
  sum : sumSizes run.state.mem fl + totalBlocks run.live = totalBlocks blocks
  disc : run.disciplined = true

/-- The values returned by the calls `Mem_Alloc(n)`, `n` in `ns`, made in this
order from the run `r`. -/
def allocResults (fuel : Nat) (r : Run) (ns : List Int) : List Int :=
  match runCalls fuel r (ns.map Call.alloc) with
  | .ok run => run.results
  | .error _ => []
/-- The fault that ended a run, if one did. -/
def faultOf (r : Except Fault Run) : Option Fault :=
  match r with
  | .error e => some e
  | .ok _ => none
/-! ## Theorems -/

/-- C1, evaluated on the code: after `Mem_Init(4096, policy)`,
`p = Mem_Alloc(100)` and `Mem_Free(p)` (a free of the only live pointer), under
each policy the free list holds the nodes `base + 108` (size 3980) and `base`
(size 108); their spans `[base+108, base+4096)` and `[base, base+116)` share
the bytes `base+108 .. base+115`, so the spans are not pairwise disjoint. -/
theorem C1_freed_node_span_overlaps :
    [P_BESTFIT, P_WORSTFIT, P_FIRSTFIT].map (fun policy =>
        observe (runCalls 16 (afterInit base 4096 policy) [.alloc 100, .free (base + 8)]))
      = List.replicate 3
          (some ⟨[base + 8, 0], true, [], some [(base + 108, 3980), (base, 108)]⟩)
    ∧ [P_BESTFIT, P_WORSTFIT, P_FIRSTFIT].map (fun policy =>
        (runCalls 16 (afterInit base 4096 policy)
          [.alloc 100, .free (base + 8)]).toOption.bind allSpans)
      = List.replicate 3 (some [(base + 108, base + 4096), (base, base + 116)])
    ∧ ¬ List.Pairwise spanDisjoint [(base + 108, base + 4096), (base, base + 116)] := by
  decide

/-- C2, evaluated on the code: with policy 3 and the free list
`base + 216` (size 3872), `base` (size 108), the request `Mem_Alloc(8)` needs
`8 + sizeof(header) = 16` bytes, which both nodes offer, yet the call returns
`NULL` and leaves the list as it was. -/
theorem C2_first_fit_misses_fitting_nodes :
    observe (runCalls 16 (afterInit base 4096 P_FIRSTFIT)
        [.alloc 100, .alloc 100, .free (base + 8)])
      = some ⟨[base + 8, base + 116, 0], true, [(base + 116, 100)],
              some [(base + 216, 3872), (base, 108)]⟩
    ∧ roundUp4 8 + sizeofHeader = 16
    ∧ observe (runCalls 16 (afterInit base 4096 P_FIRSTFIT)
        [.alloc 100, .alloc 100, .free (base + 8), .alloc 8])
      = some ⟨[base + 8, base + 116, 0, 0], true, [(base + 116, 100)],
              some [(base + 216, 3872), (base, 108)]⟩ := by
  decide

/-- C3, evaluated on the code: with policy 1 and the free list
`base + 216` (size 3872), `base` (size 108), `Mem_Alloc(8)` (16 bytes needed,
both nodes fit) returns `base + 224`: the block is carved from the node of
size 3872, the largest one, not from the node of size 108. -/
theorem C3_best_fit_takes_largest :
    observe (runCalls 16 (afterInit base 4096 P_BESTFIT)
        [.alloc 100, .alloc 100, .free (base + 8)])
      = some ⟨[base + 8, base + 116, 0], true, [(base + 116, 100)],
              some [(base + 216, 3872), (base, 108)]⟩
    ∧ observe (runCalls 16 (afterInit base 4096 P_BESTFIT)
        [.alloc 100, .alloc 100, .free (base + 8), .alloc 8])
      = some ⟨[base + 8, base + 116, 0, base + 224], true,
              [(base + 224, 8), (base + 116, 100)],
              some [(base + 232, 3856), (base, 108)]⟩ := by
  decide

/-- C4, evaluated on the code: with policy 2 and the free list
`base + 216` (size 3872), `base` (size 108), `Mem_Alloc(8)` returns `base + 8`:
the block is carved from the node of size 108, the smallest fitting one.  And
with the free list `base + 4016` (size 72), `base` (size 108), `Mem_Alloc(80)`
(88 bytes needed, the second node fits) returns `NULL`. -/
theorem C4_worst_fit_takes_smallest :
    observe (runCalls 16 (afterInit base 4096 P_WORSTFIT)
        [.alloc 100, .alloc 100, .free (base + 8), .alloc 8])
      = some ⟨[base + 8, base + 116, 0, base + 8], true,
              [(base + 8, 8), (base + 116, 100)],
              some [(base + 216, 3872), (base + 16, 92)]⟩
    ∧ observe (runCalls 16 (afterInit base 4096 P_WORSTFIT)
        [.alloc 100, .alloc 3900, .free (base + 8)])
      = some ⟨[base + 8, base + 116, 0], true, [(base + 116, 3900)],
              some [(base + 4016, 72), (base, 108)]⟩
    ∧ observe (runCalls 16 (afterInit base 4096 P_WORSTFIT)
        [.alloc 100, .alloc 3900, .free (base + 8), .alloc 80])
      = some ⟨[base + 8, base + 116, 0, 0], true, [(base + 116, 3900)],
              some [(base + 4016, 72), (base, 108)]⟩ := by
  decide

/-- C5, evaluated on the code: with policy 3 and the free list
`base + 216` (size 3872), `base` (size 108), `Mem_Alloc(4000)` needs 4008
bytes, more than either node has, yet the call returns `base + 224` and moves
the head to `base + 4224` with size `-136`. -/
theorem C5_first_fit_allocates_without_room :
    roundUp4 4000 + sizeofHeader = 4008
    ∧ observe (runCalls 16 (afterInit base 4096 P_FIRSTFIT)
        [.alloc 100, .alloc 100, .free (base + 8), .alloc 4000])
      = some ⟨[base + 8, base + 116, 0, base + 224], true,
              [(base + 224, 4000), (base + 116, 100)],
              some [(base + 4224, -136), (base, 108)]⟩ := by
  decide

/-- C6, evaluated on the code: with the region at the page-aligned base
1232896 and policy 3, the calls `p = Mem_Alloc(100)`, `Mem_Free(p)`,
`Mem_Alloc(100)`, `Mem_Alloc(100)`, `Mem_Alloc(4)` return `p`, 0, `p`,
`p + 108` and 1234575, and 1234575 is not a multiple of 4. -/
theorem C6_unaligned_result :
    baseNearMagic % 4096 = 0
    ∧ observe (runCalls 16 (afterInit baseNearMagic 4096 P_FIRSTFIT)
        [.alloc 100, .free (baseNearMagic + 8), .alloc 100, .alloc 100, .alloc 4])
      = some ⟨[baseNearMagic + 8, 0, baseNearMagic + 8, baseNearMagic + 116, 1234575], true,
              [(1234575, 4), (baseNearMagic + 116, 100), (baseNearMagic + 8, 100)],
              some [(baseNearMagic + 216, -108), (baseNearMagic + 108, 100), (1234579, -12)]⟩
    ∧ (1234575 : Int) % 4 = 3 := by
  decide

/-- C7, evaluated on the code: with a 4096-byte region at base 3086811136 and
policy 2, the calls `a = Mem_Alloc(8)`, `b = Mem_Alloc(8)`, `Mem_Free(a)`,
`Mem_Free(b)`, `Mem_Alloc(12)`, `Mem_Alloc(100)` end with the result
`base + 44`, and right after that call the header in front of it carries the
tag `MAGIC` but the size `-1208156016` (the address `base + 144` read as an
`int`), not 100. -/
theorem C7_header_size_overwritten :
    observe (runCalls 16 (afterInit highBase 4096 P_WORSTFIT)
        [.alloc 8, .alloc 8, .free (highBase + 8), .free (highBase + 24),
         .alloc 12, .alloc 100])
      = some ⟨[highBase + 8, highBase + 24, 0, 0, highBase + 24, highBase + 44], true,
              [(highBase + 44, 100), (highBase + 24, 12)],
              some [(highBase + 32, 4056), (highBase + 144, -1208156232)]⟩
    ∧ (runCalls 16 (afterInit highBase 4096 P_WORSTFIT)
        [.alloc 8, .alloc 8, .free (highBase + 8), .free (highBase + 24),
         .alloc 12, .alloc 100]).toOption.map
          (fun r => (getSize r.state.mem (highBase + 44 - sizeofHeader),
                     getValCheck r.state.mem (highBase + 44 - sizeofHeader)))
      = some (-1208156016, MAGIC)
    ∧ roundUp4 100 = 100 ∧ toInt (highBase + 144) = -1208156016 := by
  decide

/-- C8: `Mem_Free(ptr)` returns -1 and hands back the very same state when
`ptr` is `NULL`, and also when the allocator passes the assertion
(`memHasInit == 1 || head != NULL`) and the `valCheck` field of the header in
front of `ptr` is not `MAGIC`. -/
theorem C8_free_rejects_without_change (fuel : Nat) (s : State) (ptr : Int)
    (h : ptr = 0 ∨ ((s.memHasInit = 1 ∨ s.head ≠ 0) ∧
          getValCheck s.mem (toUInt (ptr - sizeofHeader)) ≠ MAGIC)) :
    Mem_Free fuel s ptr = .ok (-1, s) := by
  unfold Mem_Free
  by_cases hp : ptr = 0
  · simp [hp]
  · rcases h with h | ⟨hi, ht⟩
    · exact absurd h hp
    · simp [hp, hi, ht]

/-- C8 at a concrete input: a fresh region and the pointer `base + 8`, in front
of which no header was ever written. -/
theorem C8_free_rejects_without_change_witness :
    Mem_Free 4 (afterInit base 4096 P_BESTFIT).state (base + 8)
      = .ok (-1, (afterInit base 4096 P_BESTFIT).state) :=
  C8_free_rejects_without_change 4 (afterInit base 4096 P_BESTFIT).state (base + 8)
    (Or.inr ⟨Or.inl (by decide), by decide⟩)

/-- C9, evaluated on the code: after `p = Mem_Alloc(16)` the caller stores the
value `MAGIC` into its own payload at `p + 4`; `Mem_Free(p + 8)`, on an address
inside the payload that `Mem_Alloc` never returned, then returns 0 and links a
new node `base + 8` into the free list. -/
theorem C9_free_accepts_interior_pointer :
    observe (runCalls 16 (afterInit base 4096 P_BESTFIT)
        [.alloc 16, .write (base + 12) MAGIC])
      = some ⟨[base + 8], true, [(base + 8, 16)], some [(base + 24, 4064)]⟩
    ∧ ((runCalls 16 (afterInit base 4096 P_BESTFIT)
        [.alloc 16, .write (base + 12) MAGIC]).toOption.bind
          (fun r => (Mem_Free 16 r.state (base + 16)).toOption)).map
          (fun x => (x.1, freeList x.2.mem 64 x.2.head))
      = some (0, some [(base + 24, 4064), (base + 8, 8)]) := by
  decide

/-- C10, evaluated on the code: after `a = Mem_Alloc(8)`, `b = Mem_Alloc(8)`,
`Mem_Alloc(4)`, `Mem_Alloc(4)`, `Mem_Free(a)`, `Mem_Free(b)` (both frees
return 0, under each policy) the free list holds `base + 56` (size 4032) and
`base + 16` (size 32): the span of the second node ends at
`base + 16 + 8 + 32 = base + 56`, exactly where the first node begins. -/
theorem C10_adjacent_nodes_after_free :
    [P_BESTFIT, P_WORSTFIT, P_FIRSTFIT].map (fun policy =>
        observe (runCalls 16 (afterInit base 4096 policy)
          [.alloc 8, .alloc 8, .alloc 4, .alloc 4, .free (base + 8), .free (base + 24)]))
      = List.replicate 3
          (some ⟨[base + 8, base + 24, base + 40, base + 52, 0, 0], true,
                 [(base + 52, 4), (base + 40, 4)],
                 some [(base + 56, 4032), (base + 16, 32)]⟩)
    ∧ hasAdjacentNodes [(base + 56, 4032), (base + 16, 32)] := by
  decide

/-! ## Machine-integer and store lemmas -/

theorem toUInt_eq_self {x : Int} (h0 : 0 ≤ x) (h1 : x < 4294967296) : toUInt x = x := by
  unfold toUInt; omega

theorem toInt_eq_self {x : Int} (h0 : -2147483648 ≤ x) (h1 : x < 2147483648) :
    toInt x = x := by
  unfold toInt; omega

theorem store_same (m : Memory) (a v : Int) : store m a v a = v := by
  simp [store]

theorem store_other (m : Memory) (a v b : Int) (h : b ≠ a) : store m a v b = m b := by
  simp [store, h]

/-- C15: `Mem_Init` returns -1 and hands back the very same state when
`region_size <= 0`, when `policy` is none of 1, 2, 3, or when `memHasInit` is
already set; with valid arguments, an uninitialised state and a successful
`mmap` it returns 0 and sets `memHasInit` to 1; hence a second `Mem_Init` after
a successful one returns -1 and keeps the state (policy, head, memory). -/
theorem C15_init_rejects_bad_arguments (page mmapResult : Int) (s : State)
    (region_size policy : Int) :
    ((region_size ≤ 0 ∨ (policy ≠ 1 ∧ policy ≠ 2 ∧ policy ≠ 3) ∨ s.memHasInit ≠ 0) →
        Mem_Init page mmapResult s region_size policy = (-1, s))
    ∧ ((0 < region_size ∧ (policy = 1 ∨ policy = 2 ∨ policy = 3) ∧ s.memHasInit = 0 ∧
          mmapResult ≠ MAP_FAILED) →
        (Mem_Init page mmapResult s region_size policy).1 = 0
        ∧ (Mem_Init page mmapResult s region_size policy).2.memHasInit = 1
        ∧ (Mem_Init page mmapResult s region_size policy).2.policyType = policy
        ∧ ∀ page2 mmapResult2 region_size2 policy2 : Int,
            Mem_Init page2 mmapResult2 (Mem_Init page mmapResult s region_size policy).2
                region_size2 policy2
              = (-1, (Mem_Init page mmapResult s region_size policy).2)) := by
  constructor
  · intro h
    have hc : region_size ≤ 0 ∨ policy > 3 ∨ policy < 1 ∨ s.memHasInit ≠ 0 := by
      rcases h with h | h | h
      · exact Or.inl h
      · by_cases h3 : policy > 3
        · exact Or.inr (Or.inl h3)
        · by_cases h1 : policy < 1
          · exact Or.inr (Or.inr (Or.inl h1))
          · exfalso; obtain ⟨a, b, c⟩ := h; omega
      · exact Or.inr (Or.inr (Or.inr h))
    unfold Mem_Init
    rw [if_pos hc]
  · rintro ⟨hrs, hpol, hinit, hmm⟩
    have hc : ¬ (region_size ≤ 0 ∨ policy > 3 ∨ policy < 1 ∨ s.memHasInit ≠ 0) := by
      rintro (h | h | h | h)
      · omega
      · omega
      · omega
      · exact h hinit
    have key : Mem_Init page mmapResult s region_size policy =
        (0, { memHasInit := 1, policyType := policy, head := mmapResult,
              mem := (Mem_Init page mmapResult s region_size policy).2.mem }) := by
      unfold Mem_Init
      rw [if_neg hc]
      simp only [if_neg hmm]
    refine ⟨by rw [key], by rw [key], by rw [key], ?_⟩
    intro page2 mmapResult2 region_size2 policy2
    have h1 : (Mem_Init page mmapResult s region_size policy).2.memHasInit ≠ 0 := by
      rw [key]; simp
    generalize (Mem_Init page mmapResult s region_size policy).2 = s1 at h1
    unfold Mem_Init
    rw [if_pos (Or.inr (Or.inr (Or.inr h1)))]

/-- C15 at a concrete input: `Mem_Init(0, 1)` on the start state. -/
theorem C15_init_rejects_bad_arguments_witness :
    Mem_Init 4096 base State.start 0 1 = (-1, State.start) :=
  (C15_init_rejects_bad_arguments 4096 base State.start 0 1).1 (Or.inl (by decide))

/-- The page rounding at the top of `Mem_Init` yields the least multiple of the
page size that is not below the request. -/
theorem page_rounding (page region_size R : Int) (hrs : 0 < region_size)
    (hpage : 0 < page) (hdvd : page ∣ R) (hge : region_size ≤ R)
    (hleast : R < region_size + page) (hint : R < 2147483648) :
    (if region_size.tmod page ≠ 0 then
        toInt (region_size + toInt (page - region_size.tmod page))
      else region_size) = R := by
  rw [Int.tmod_eq_emod (le_of_lt hrs) (le_of_lt hpage)]
  obtain ⟨a, ha⟩ := hdvd
  have hq0 : 0 ≤ region_size % page := Int.emod_nonneg _ (ne_of_gt hpage)
  have hq1 : region_size % page < page := Int.emod_lt_of_pos _ hpage
  have hdiv : page * (region_size / page) + region_size % page = region_size :=
    Int.ediv_add_emod region_size page
  generalize region_size / page = k at hdiv
  generalize region_size % page = q at hdiv hq0 hq1
  have hak : k ≤ a := by
    by_contra hlt
    have : a + 1 ≤ k := by omega
    have : page * (a + 1) ≤ page * k := Int.mul_le_mul_of_nonneg_left this (le_of_lt hpage)
    rw [Int.mul_add] at this
    omega
  have hak2 : a ≤ k + 1 := by
    by_contra hlt
    have : k + 2 ≤ a := by omega
    have : page * (k + 2) ≤ page * a := Int.mul_le_mul_of_nonneg_left this (le_of_lt hpage)
    rw [Int.mul_add] at this
    omega
  have hpk : page * (k + 1) = page * k + page := by rw [Int.mul_add, Int.mul_one]
  have hk0 : 0 ≤ page * k := by
    by_contra hlt
    have hk : k + 1 ≤ 0 := by
      by_contra hk
      have : 0 ≤ k := by omega
      exact hlt (Int.mul_nonneg (le_of_lt hpage) this)
    have : page * (k + 1) ≤ page * 0 := Int.mul_le_mul_of_nonneg_left hk (le_of_lt hpage)
    rw [Int.mul_zero] at this
    omega
  by_cases hq : q = 0
  · rw [if_neg (by simpa using hq)]
    have : a = k := by
      by_contra hne
      have : a = k + 1 := by omega
      subst this
      omega
    subst this
    omega
  · rw [if_pos hq]
    have : a = k + 1 := by
      by_contra hne
      have : a = k := by omega
      subst this
      omega
    subst this
    have hp : page ≤ 2147483647 := by omega
    have h1 : toInt (page - q) = page - q := toInt_eq_self (by omega) (by omega)
    rw [h1, toInt_eq_self (by omega) (by omega)]
    omega

/-- A successful `Mem_Init` on an uninitialised state: the free list is the
single node at the region base; `R` is the least multiple of `page` not below
`region_size`. -/
theorem Mem_Init_fresh (page mmapResult : Int) (s : State)
    (region_size policy R : Int)
    (hrs : 0 < region_size) (hpol : policy = 1 ∨ policy = 2 ∨ policy = 3)
    (hpage : 0 < page) (hinit : s.memHasInit = 0)
    (hdvd : page ∣ R) (hge : region_size ≤ R) (hleast : R < region_size + page)
    (hint : R < 2147483648)
    (hmm0 : 0 < mmapResult) (hmm1 : mmapResult < 4294967295) :
    ∃ s', Mem_Init page mmapResult s region_size policy = (0, s')
      ∧ s'.head = mmapResult
      ∧ getNext s'.mem s'.head = 0
      ∧ getSize s'.mem s'.head = R - sizeofNode
      ∧ freeList s'.mem 2 s'.head = some [(mmapResult, R - sizeofNode)]
      ∧ s'.policyType = policy ∧ s'.memHasInit = 1
      ∧ (page ∣ region_size → R = region_size) := by
  have hc : ¬ (region_size ≤ 0 ∨ policy > 3 ∨ policy < 1 ∨ s.memHasInit ≠ 0) := by
    rintro (h | h | h | h)
    · omega
    · omega
    · omega
    · exact h hinit
  have hmm : mmapResult ≠ MAP_FAILED := by unfold MAP_FAILED; omega
  have hround := page_rounding page region_size R hrs hpage hdvd hge hleast hint
  have hR8 : 0 < R := by omega
  have hcell : toUInt (mmapResult + 4) ≠ mmapResult := by unfold toUInt; omega
  have hnext : ∀ m : Memory, getNext (setNext m mmapResult 0) mmapResult = 0 := by
    intro m; simp [getNext, setNext, store, toUInt]
  have hsize : ∀ m : Memory, ∀ v : Int,
      getSize (setNext (setSize m mmapResult v) mmapResult 0) mmapResult = toInt v := by
    intro m v
    simp only [getSize, setNext, setSize]
    rw [store_other _ _ _ _ (Ne.symm hcell), store_same]
  have hval : toInt (toUInt R - sizeofNode) = R - sizeofNode := by
    rw [toUInt_eq_self (by omega) (by omega)]
    unfold sizeofNode
    rw [toInt_eq_self (by omega) (by omega)]
  refine ⟨{ memHasInit := 1, policyType := policy, head := mmapResult,
             mem := setNext (setSize (fun a =>
                 if mmapResult ≤ a ∧ a < mmapResult + toUInt R then 0 else s.mem a)
               mmapResult (toInt (toUInt R - sizeofNode))) mmapResult 0 }, ?_, ?_⟩
  · unfold Mem_Init
    rw [if_neg hc]
    simp only [hround, if_neg hmm]
  · refine ⟨rfl, hnext _, ?_, ?_, rfl, rfl, ?_⟩
    · rw [hsize, toInt_eq_self, hval]
      · rw [hval]; unfold sizeofNode; omega
      · rw [hval]; unfold sizeofNode; omega
    · have h0 : mmapResult ≠ 0 := by omega
      simp only [freeList, if_neg h0, hnext, hsize, if_true, Option.map_some']
      rw [toInt_eq_self, hval]
      · rw [hval]; unfold sizeofNode; omega
      · rw [hval]; unfold sizeofNode; omega
    · intro hd
      obtain ⟨a, ha⟩ := hdvd
      obtain ⟨b, hb⟩ := hd
      have h1 : b ≤ a := by
        by_contra hlt
        have : a + 1 ≤ b := by omega
        have : page * (a + 1) ≤ page * b := Int.mul_le_mul_of_nonneg_left this (le_of_lt hpage)
        rw [Int.mul_add] at this
        omega
      have h2 : a ≤ b := by
        by_contra hlt
        have : b + 1 ≤ a := by omega
        have : page * (b + 1) ≤ page * a := Int.mul_le_mul_of_nonneg_left this (le_of_lt hpage)
        rw [Int.mul_add] at this
        omega
      have : a = b := by omega
      rw [ha, hb, this]

/-- C16: for `region_size > 0`, a policy in 1..3, a page size `page > 0`, an
uninitialised state and a successful `mmap` at a non-null address, `Mem_Init`
returns 0 and leaves the free list as the single node at the region base with
`next = NULL` and `size = R - sizeof(node_t)`, where `R` is the least multiple
of `page` with `R >= region_size` (assumed to fit an `int`); it records the
policy and sets `memHasInit`; `R = region_size` when that is already a
multiple of `page`. -/
theorem C16_init_seeds_single_node (page mmapResult : Int) (s : State)
    (region_size policy R : Int)
    (hrs : 0 < region_size) (hpol : policy = 1 ∨ policy = 2 ∨ policy = 3)
    (hpage : 0 < page) (hinit : s.memHasInit = 0)
    (hdvd : page ∣ R) (hge : region_size ≤ R) (hleast : R < region_size + page)
    (hint : R < 2147483648)
    (hmm0 : 0 < mmapResult) (hmm1 : mmapResult < 4294967295) :
    ∃ s', Mem_Init page mmapResult s region_size policy = (0, s')
      ∧ s'.head = mmapResult
      ∧ getNext s'.mem s'.head = 0
      ∧ getSize s'.mem s'.head = R - sizeofNode
      ∧ freeList s'.mem 2 s'.head = some [(mmapResult, R - sizeofNode)]
      ∧ s'.policyType = policy ∧ s'.memHasInit = 1
      ∧ (page ∣ region_size → R = region_size) :=
  Mem_Init_fresh page mmapResult s region_size policy R hrs hpol hpage hinit hdvd hge
    hleast hint hmm0 hmm1

/-- C16 at a concrete input: `Mem_Init(5000, 3)` with 4096-byte pages rounds
to 8192 bytes. -/
theorem C16_init_seeds_single_node_witness :
    ∃ s', Mem_Init 4096 base State.start 5000 3 = (0, s')
      ∧ s'.head = base
      ∧ getNext s'.mem s'.head = 0
      ∧ getSize s'.mem s'.head = 8192 - sizeofNode
      ∧ freeList s'.mem 2 s'.head = some [(base, 8192 - sizeofNode)]
      ∧ s'.policyType = 3 ∧ s'.memHasInit = 1
      ∧ ((4096 : Int) ∣ 5000 → (8192 : Int) = 5000) :=
  C16_init_seeds_single_node 4096 base State.start 5000 3 8192 (by decide)
    (by decide) (by decide) (by decide) (by decide) (by decide) (by decide) (by decide)
    (by decide) (by decide)


/-! ## `split` and the single-node branch -/

/-- The value `split` stores as the size of the remainder is `S - size - 8`
reduced to an `int`. -/
theorem remainder_value (S size : Int) :
    toInt (toUInt (toInt (S - size)) - sizeofHeader) = toInt (S - size - 8) := by
  unfold toInt toUInt sizeofHeader; omega

/-- Closed form of `split` on a non-null node when the block and the metadata
of the remainder lie inside the 32-bit address space. -/
theorem split_eq (m : Memory) (p r : Int) (hp0 : 0 < p) (hr4 : 4 ≤ r)
    (hfit : p + r + 16 ≤ 4294967296) :
    split m p r =
      (p + r + 8,
        store (store (store (store m (p + r + 8) (toInt (getSize m p - r - 8)))
          (p + r + 12) (getNext m p)) p r) (p + 4) MAGIC) := by
  have hp : p ≠ 0 := by omega
  have h1 : toUInt (p + toUInt (toUInt r + sizeofHeader)) = p + r + 8 := by
    unfold toUInt sizeofHeader; omega
  have h2 : toUInt (p + r + 8 + 4) = p + r + 12 := by unfold toUInt; omega
  have h3 : toUInt (p + 4) = p + 4 := by unfold toUInt; omega
  have h4 : p + 4 ≠ p + r + 8 := by omega
  unfold split
  rw [if_neg hp]
  simp only [h1, setSize, setNext, setValCheck, getNext, h2, h3, remainder_value,
    store_other _ _ _ _ h4]

/-- Fields after `split` on a non-null node `p` with size `S` and successor
`X`: header at `p`, remainder node at `p + r + 8`, payload pointer, and the
cells left untouched. -/
theorem split_fields (m : Memory) (p r S X : Int)
    (hp0 : 0 < p) (hr4 : 4 ≤ r) (hr : r < 2147483648)
    (hfit : p + r + 16 ≤ 4294967296)
    (hS : getSize m p = S) (hX : getNext m p = X)
    (hrem : -2147483648 ≤ S - r - 8) :
    (split m p r).1 = p + r + 8
    ∧ getSize (split m p r).2 p = r
    ∧ getValCheck (split m p r).2 p = MAGIC
    ∧ getSize (split m p r).2 (p + r + 8) = S - r - 8
    ∧ getNext (split m p r).2 (p + r + 8) = X
    ∧ toUInt ((split m p r).1 - r) = p + 8
    ∧ (∀ a, a ≠ p → a ≠ p + 4 → a ≠ p + r + 8 → a ≠ p + r + 12 →
        (split m p r).2 a = m a) := by
  have hSr : -2147483648 ≤ S ∧ S < 2147483648 := by
    rw [← hS]; unfold getSize toInt; omega
  have hsp := split_eq m p r hp0 hr4 hfit
  have hptr : toUInt (p + r + 8 - r) = p + 8 := by unfold toUInt; omega
  have h3 : toUInt (p + 4) = p + 4 := by unfold toUInt; omega
  have h2 : toUInt (p + r + 8 + 4) = p + r + 12 := by unfold toUInt; omega
  have e1 : p ≠ p + 4 := by omega
  have e2 : p + r + 8 ≠ p + 4 := by omega
  have e3 : p + r + 8 ≠ p := by omega
  have e4 : p + r + 8 ≠ p + r + 12 := by omega
  have e5 : p + r + 12 ≠ p + 4 := by omega
  have e6 : p + r + 12 ≠ p := by omega
  refine ⟨?_, ?_, ?_, ?_, ?_, ?_, ?_⟩
  · rw [hsp]
  · rw [hsp]
    simp only [getSize, store_other _ _ _ _ e1, store_same]
    exact toInt_eq_self (by omega) hr
  · rw [hsp]
    simp only [getValCheck, h3, store_same]
    decide
  · rw [hsp]
    simp only [getSize, store_other _ _ _ _ e2, store_other _ _ _ _ e3,
      store_other _ _ _ _ e4, store_same, hS]
    have hv : toInt (S - r - 8) = S - r - 8 := toInt_eq_self hrem (by omega)
    have hS2 : toInt (m p) = S := hS
    rw [hS2, hv, hv]
  · rw [hsp]
    simp only [getNext, h2, store_other _ _ _ _ e5, store_other _ _ _ _ e6,
      store_same]
    rw [← hX]
    simp only [getNext, h3]
    unfold toUInt; omega
  · rw [hsp]; exact hptr
  · intro a ha1 ha2 ha3 ha4
    rw [hsp]
    simp only [store_other _ _ _ _ ha1, store_other _ _ _ _ ha2, store_other _ _ _ _ ha3,
      store_other _ _ _ _ ha4]

/-- The rounding at the top of `Mem_Alloc` yields the least multiple of 4 that
is not below the request, unless that multiple is `2^31`, in which case the
`int` wraps to `-2^31`. -/
theorem roundUp4_spec (n r : Int) (hn0 : 0 < n) (hn1 : n < 2147483648)
    (hdvd : 4 ∣ r) (hge : n ≤ r) (hleast : r < n + 4) :
    (r < 2147483648 ∧ roundUp4 n = r) ∨ (r = 2147483648 ∧ roundUp4 n = -2147483648) := by
  unfold roundUp4
  rw [Int.tmod_eq_emod (le_of_lt hn0) (by decide)]
  by_cases h : n % 4 = 0
  · left
    rw [if_neg (by simpa using h)]
    omega
  · rw [if_pos h]
    unfold toInt
    omega

/-- The single-node branch of `Mem_Alloc`: failure leaves the state as it is,
success splits the node; `r` is the least multiple of 4 not below `n`. -/
theorem alloc_single_node (fuel : Nat) (s : State) (n r p S : Int)
    (hinit : s.memHasInit = 1)
    (hpol : s.policyType = 1 ∨ s.policyType = 2 ∨ s.policyType = 3)
    (hhead : s.head = p) (hp0 : 0 < p) (hnext : getNext s.mem p = 0)
    (hS : getSize s.mem p = S) (hS0 : 0 ≤ S)
    (hspan : p + sizeofNode + S ≤ 4294967296)
    (hn0 : 0 < n) (hn1 : n < 2147483648)
    (hdvd : 4 ∣ r) (hge : n ≤ r) (hleast : r < n + 4) :
    (S < r + sizeofHeader → Mem_Alloc fuel s n = .ok (0, s))
    ∧ (r + sizeofHeader ≤ S →
        roundUp4 n = r
        ∧ Mem_Alloc fuel s n
          = .ok (p + sizeofHeader,
              { s with head := p + r + sizeofHeader, mem := (split s.mem p r).2 })
        ∧ getSize (split s.mem p r).2 (p + r + sizeofHeader) = S - r - sizeofHeader
        ∧ getNext (split s.mem p r).2 (p + r + sizeofHeader) = 0
        ∧ freeList (split s.mem p r).2 2 (p + r + sizeofHeader)
            = some [(p + r + sizeofHeader, S - r - sizeofHeader)]) := by
  have hSr : S < 2147483648 := by
    rw [← hS]; unfold getSize toInt; omega
  have hc1 : ¬ s.memHasInit ≠ 1 := by simp [hinit]
  have hc2 : ¬ ¬ (s.policyType > 0 ∧ s.policyType < 4) := by
    rw [not_not]; omega
  have hc3 : ¬ ¬ (n > 0) := by rw [not_not]; exact hn0
  have hc4 : s.head ≠ 0 ∧ getNext s.mem s.head = 0 := by
    rw [hhead]; exact ⟨by omega, hnext⟩
  have hUS : toUInt (getSize s.mem s.head) = S := by
    rw [hhead, hS]; exact toUInt_eq_self hS0 (by omega)
  unfold sizeofNode at hspan
  unfold sizeofHeader
  constructor
  · intro hlt
    unfold Mem_Alloc
    rw [if_neg hc1, if_neg hc2, if_neg hc3]
    simp only [if_pos hc4, hUS]
    rw [if_pos]
    rcases roundUp4_spec n r hn0 hn1 hdvd hge hleast with ⟨h1, h2⟩ | ⟨h1, h2⟩
    · rw [h2]; unfold toUInt sizeofHeader; omega
    · rw [h2]; unfold toUInt sizeofHeader; omega
  · intro hfit
    have hr : roundUp4 n = r := by
      rcases roundUp4_spec n r hn0 hn1 hdvd hge hleast with ⟨_, h2⟩ | ⟨h1, _⟩
      · exact h2
      · omega
    have hr4 : 4 ≤ r := by omega
    have hsp := split_eq s.mem p r hp0 hr4 (by omega)
    have h18 := split_fields s.mem p r S 0 hp0 hr4 (by omega) (by omega) hS hnext (by omega)
    have hnog : ¬ toUInt (r + sizeofHeader) > S := by
      unfold toUInt sizeofHeader; omega
    have hptr : toUInt (p + r + 8 - r) = p + 8 := by unfold toUInt; omega
    refine ⟨hr, ?_, ?_, ?_, ?_⟩
    · unfold Mem_Alloc
      rw [if_neg hc1, if_neg hc2, if_neg hc3]
      simp only [if_pos hc4, hUS, hr, if_neg hnog]
      rw [hhead, hsp]
      simp only [hptr]
    · exact h18.2.2.2.1
    · exact h18.2.2.2.2.1
    · have hne : p + r + 8 ≠ 0 := by omega
      have e1 := h18.2.2.2.1
      have e2 := h18.2.2.2.2.1
      simp only [freeList, if_neg hne, e1, e2, if_true, Option.map_some']

/-- C14: when the free list is the single node `p` with size `S >= 0` (its span
inside the address space), then for each policy and each request `n > 0`, with
`r` the least multiple of 4 not below `n`: if `r + sizeof(header) > S`,
`Mem_Alloc(n)` returns `NULL` and the state is unchanged; otherwise it returns
`p + sizeof(header)` and the free list becomes the single node
`p + r + sizeof(header)` with size `S - r - sizeof(header)` and `next = NULL`.
The policy does not enter either result. -/
theorem C14_single_node_alloc (fuel : Nat) (s : State) (n r p S : Int)
    (hinit : s.memHasInit = 1)
    (hpol : s.policyType = 1 ∨ s.policyType = 2 ∨ s.policyType = 3)
    (hhead : s.head = p) (hp0 : 0 < p) (hnext : getNext s.mem p = 0)
    (hS : getSize s.mem p = S) (hS0 : 0 ≤ S)
    (hspan : p + sizeofNode + S ≤ 4294967296)
    (hn0 : 0 < n) (hn1 : n < 2147483648)
    (hdvd : 4 ∣ r) (hge : n ≤ r) (hleast : r < n + 4) :
    (S < r + sizeofHeader → Mem_Alloc fuel s n = .ok (0, s))
    ∧ (r + sizeofHeader ≤ S →
        Mem_Alloc fuel s n
          = .ok (p + sizeofHeader,
              { s with head := p + r + sizeofHeader, mem := (split s.mem p r).2 })
        ∧ getSize (split s.mem p r).2 (p + r + sizeofHeader) = S - r - sizeofHeader
        ∧ getNext (split s.mem p r).2 (p + r + sizeofHeader) = 0
        ∧ freeList (split s.mem p r).2 2 (p + r + sizeofHeader)
            = some [(p + r + sizeofHeader, S - r - sizeofHeader)]) :=
  ⟨(alloc_single_node fuel s n r p S hinit hpol hhead hp0 hnext hS hS0 hspan hn0 hn1
      hdvd hge hleast).1,
   fun h => (alloc_single_node fuel s n r p S hinit hpol hhead hp0 hnext hS hS0 hspan hn0
      hn1 hdvd hge hleast).2 h |>.2⟩

/-- C14 at a concrete input: `Mem_Alloc(100)` on a fresh 4096-byte region. -/
theorem C14_single_node_alloc_witness :
    Mem_Alloc 0 (afterInit base 4096 2).state 100
      = .ok (base + sizeofHeader,
          { (afterInit base 4096 2).state with
              head := base + 100 + sizeofHeader,
              mem := (split (afterInit base 4096 2).state.mem base 100).2 }) :=
  ((C14_single_node_alloc 0 (afterInit base 4096 2).state 100 100 base 4088 (by decide)
      (by decide) (by decide) (by decide) (by decide) (by decide) (by decide) (by decide)
      (by decide) (by decide) (by decide) (by decide) (by decide)).2 (by decide)).1


/-! ## Round trip, coalescing scenario, termination -/

/-- C12, evaluated on the code: a fresh 4096-byte region is the single node
`base` of size 4088; after `p = Mem_Alloc(16)` and `Mem_Free(p)` (returning 0),
under each policy the free list is `base + 24` (size 4064) followed by `base`
(size 24): two nodes, none of them at `base` with size 4088. -/
theorem C12_round_trip_leaves_two_nodes :
    [P_BESTFIT, P_WORSTFIT, P_FIRSTFIT].map (fun policy =>
        observe (runCalls 16 (afterInit base 4096 policy) []))
      = List.replicate 3 (some ⟨[], true, [], some [(base, 4088)]⟩)
    ∧ [P_BESTFIT, P_WORSTFIT, P_FIRSTFIT].map (fun policy =>
        observe (runCalls 16 (afterInit base 4096 policy) [.alloc 16, .free (base + 8)]))
      = List.replicate 3
          (some ⟨[base + 8, 0], true, [], some [(base + 24, 4064), (base, 24)]⟩) := by
  decide

/-- C13, evaluated on the code: after `Mem_Init(4096, 3)`, two calls
`Mem_Alloc(100)` return `base + 8` and `base + 116`.  Freeing the first and
then the second leaves the two nodes `base + 216` (size 3872) and `base + 108`
(size 216); freeing the second and then the first leaves the three nodes
`base + 216` (size 3872), `base + 108` (size 108), `base` (size 108).  In
neither order is the result the single node `base` of size 4088. -/
theorem C13_scenario_does_not_coalesce :
    observe (runCalls 16 (afterInit base 4096 P_FIRSTFIT)
        [.alloc 100, .alloc 100, .free (base + 8), .free (base + 116)])
      = some ⟨[base + 8, base + 116, 0, 0], true, [],
              some [(base + 216, 3872), (base + 108, 216)]⟩
    ∧ observe (runCalls 16 (afterInit base 4096 P_FIRSTFIT)
        [.alloc 100, .alloc 100, .free (base + 116), .free (base + 8)])
      = some ⟨[base + 8, base + 116, 0, 0], true, [],
              some [(base + 216, 3872), (base + 108, 108), (base, 108)]⟩ := by
  decide

/-- On a node that is its own successor the scan of `case P_WORSTFIT` uses up
any amount of fuel. -/
theorem worstFitLoop_self_loop (m : Memory) (size p : Int) (hp : p ≠ 0)
    (hself : getNext m p = p) :
    ∀ (fuel : Nat) (nodePrev nodeMinmax nodePrevMinmax : Int) (found : Bool),
      worstFitLoop m size fuel p nodePrev nodeMinmax nodePrevMinmax found = .error .fuel := by
  intro fuel
  induction fuel with
  | zero => intros; rfl
  | succ k ih =>
    intro nodePrev nodeMinmax nodePrevMinmax found
    unfold worstFitLoop
    rw [if_neg hp, hself]
    split
    · exact ih _ _ _ _
    · exact ih _ _ _ _

/-- On a node that is its own successor and lies at or above the node to be
inserted, the scan of `insertNode` uses up any amount of fuel. -/
theorem insertLoop_self_loop (m : Memory) (inNode p : Int) (hp : p ≠ 0)
    (hge : p ≥ inNode) (hself : getNext m p = p) :
    ∀ (fuel : Nat) (prev : Int), insertLoop m inNode fuel prev p = .error .fuel := by
  intro fuel
  induction fuel with
  | zero => intros; rfl
  | succ k ih =>
    intro prev
    unfold insertLoop
    rw [if_pos ⟨hp, hge⟩, hself]
    exact ih _

/-- C17, evaluated on the code: under policy 2 the calls `p = Mem_Alloc(100)`,
`Mem_Free(p)`, `Mem_Alloc(100)` on a fresh 4096-byte region (the free is on the
live pointer) return `base + 8`, 0, `base + 8` and leave `head = base + 108`
with `head->next == head`: following `next` from `head` never reaches `NULL`.
In that state the scan of `Mem_Alloc(4)` and the scan of `insertNode` inside
`Mem_Free(base + 8)` (a live pointer) do not end, whatever the fuel. -/
theorem C17_free_list_becomes_cyclic :
    observe (runCalls 16 (afterInit base 4096 P_WORSTFIT)
        [.alloc 100, .free (base + 8), .alloc 100])
      = some ⟨[base + 8, 0, base + 8], true, [(base + 8, 100)], none⟩
    ∧ cyclicState.head = base + 108
    ∧ getNext cyclicState.mem cyclicState.head = cyclicState.head
    ∧ (∀ fuel : Nat, freeList cyclicState.mem fuel cyclicState.head = none)
    ∧ (∀ fuel : Nat, Mem_Alloc fuel cyclicState 4 = .error .fuel)
    ∧ (∀ fuel : Nat, Mem_Free fuel cyclicState (base + 8) = .error .fuel) := by
  have hhead : cyclicState.head = base + 108 := by decide
  have hself : getNext cyclicState.mem (base + 108) = base + 108 := by decide
  have hne : base + 108 ≠ 0 := by decide
  refine ⟨by decide, hhead, by rw [hhead]; exact hself, ?_, ?_, ?_⟩
  · intro fuel
    rw [hhead]
    induction fuel with
    | zero => rfl
    | succ k ih =>
      unfold freeList
      rw [if_neg hne, hself, ih]
      rfl
  · intro fuel
    have h1 : ¬ cyclicState.memHasInit ≠ 1 := by decide
    have h2 : ¬ ¬ (cyclicState.policyType > 0 ∧ cyclicState.policyType < 4) := by decide
    have h3 : ¬ ¬ ((4 : Int) > 0) := by decide
    have h4 : ¬ (cyclicState.head ≠ 0 ∧ getNext cyclicState.mem cyclicState.head = 0) := by
      decide
    have h5 : ¬ cyclicState.policyType = P_BESTFIT := by decide
    have h6 : cyclicState.policyType = P_WORSTFIT := by decide
    have h7 : ¬ cyclicState.head = 0 := by decide
    unfold Mem_Alloc
    rw [if_neg h1, if_neg h2, if_neg h3]
    simp only [if_neg h4, if_neg h5, if_pos h6, if_neg h7]
    rw [hhead, worstFitLoop_self_loop _ _ _ hne hself]
  · intro fuel
    have h1 : ¬ (base + 8 = 0) := by decide
    have h2 : ¬ ¬ (cyclicState.memHasInit = 1 ∨ cyclicState.head ≠ 0) := by decide
    have h3 : ¬ getValCheck cyclicState.mem (toUInt (base + 8 - sizeofHeader)) ≠ MAGIC := by
      decide
    have hself2 : getNext (setNext (setSize cyclicState.mem (toUInt (base + 8 - sizeofHeader))
          (toInt (toUInt (getSize cyclicState.mem (toUInt (base + 8 - sizeofHeader)))
            + sizeofHeader))) (toUInt (base + 8 - sizeofHeader)) 0) (base + 108)
        = base + 108 := by decide
    have hge : base + 108 ≥ toUInt (base + 8 - sizeofHeader) := by decide
    unfold Mem_Free
    rw [if_neg h1, if_neg h2]
    simp only [if_neg h3]
    unfold insertNode
    simp only [hhead]
    rw [insertLoop_self_loop _ _ _ hne hge hself2]


/-! ## Runs that only allocate -/

theorem totalBlocks_nonneg (l : List (Int × Int)) (h : ∀ b ∈ l, 4 ≤ b.2 ∧ 4 ∣ b.2) :
    0 ≤ totalBlocks l := by
  induction l with
  | nil => simp [totalBlocks]
  | cons b bs ih =>
    have h1 := (h b (List.mem_cons_self _ _)).1
    have h2 := ih (fun x hx => h x (List.mem_cons_of_mem _ hx))
    simp only [totalBlocks, sizeofHeader]
    omega

/-- In a stack of blocks every payload starts one header above `B` or higher
and ends at or below the top of the stack. -/
theorem stacked_bounds (B : Int) (l : List (Int × Int)) (hst : Stacked B l)
    (h : ∀ b ∈ l, 4 ≤ b.2 ∧ 4 ∣ b.2) :
    ∀ b ∈ l, B + sizeofHeader ≤ b.1 ∧ b.1 + b.2 ≤ B + totalBlocks l := by
  induction l with
  | nil => intro b hb; cases hb
  | cons c cs ih =>
    have hcs : ∀ x ∈ cs, 4 ≤ x.2 ∧ 4 ∣ x.2 := fun x hx => h x (List.mem_cons_of_mem _ hx)
    have hnn := totalBlocks_nonneg cs hcs
    have hc := (h c (List.mem_cons_self _ _)).1
    intro b hb
    simp only [totalBlocks, sizeofHeader]
    rcases List.mem_cons.1 hb with rfl | hb
    · have := hst.1
      simp only [sizeofHeader] at this
      omega
    · have := ih hst.2 hcs b hb
      simp only [sizeofHeader] at this
      omega

/-- The payloads of a stack of blocks are pairwise disjoint. -/
theorem stacked_pairwise (B : Int) (l : List (Int × Int)) (hst : Stacked B l)
    (h : ∀ b ∈ l, 4 ≤ b.2 ∧ 4 ∣ b.2) :
    l.Pairwise (fun a b => spanDisjoint (payload a) (payload b)) := by
  induction l with
  | nil => exact List.Pairwise.nil
  | cons c cs ih =>
    have hcs : ∀ x ∈ cs, 4 ≤ x.2 ∧ 4 ∣ x.2 := fun x hx => h x (List.mem_cons_of_mem _ hx)
    refine List.Pairwise.cons ?_ (ih hst.2 hcs)
    intro b hb
    have hb2 := (stacked_bounds B cs hst.2 hcs b hb).2
    have hc := hst.1
    simp only [sizeofHeader] at hc
    right
    simp only [payload]
    omega

/-- One `Mem_Alloc` call keeps the shape of an allocate-only run. -/
theorem allocOnly_step (fuel : Nat) (B R : Int) (run : Run) (n : Int)
    (hB0 : 0 < B) (hBR : B + R ≤ 4294967296)
    (hinv : AllocOnly B R run) (hn0 : 0 < n) (hn1 : n < 2147483648) :
    ∃ run', stepCall fuel run (.alloc n) = .ok run' ∧ AllocOnly B R run' := by
  have hnn := totalBlocks_nonneg run.live (fun b hb => hinv.sizes b hb)
  have hroom := hinv.room
  have hsz := hinv.size
  unfold sizeofNode at hroom hsz
  have hd : (4 : Int) ∣ 4 * ((n + 3) / 4) := Dvd.intro _ rfl
  have hal := alloc_single_node fuel run.state n (4 * ((n + 3) / 4))
    (B + totalBlocks run.live) (R - 8 - totalBlocks run.live) hinv.init hinv.policy
    hinv.head (by omega) (by rw [← hinv.head]; exact hinv.next)
    (by rw [← hinv.head]; exact hsz) hroom (by unfold sizeofNode; omega) hn0 hn1 hd
    (by omega) (by omega)
  by_cases hfit : 4 * ((n + 3) / 4) + sizeofHeader ≤ R - 8 - totalBlocks run.live
  · obtain ⟨hr, heq, hs, hnx, _⟩ := hal.2 hfit
    have hp : ¬ (B + totalBlocks run.live + sizeofHeader = 0) := by
      unfold sizeofHeader; omega
    refine ⟨{ run with
        state := { run.state with
          head := B + totalBlocks run.live + 4 * ((n + 3) / 4) + sizeofHeader,
          mem := (split run.state.mem (B + totalBlocks run.live) (4 * ((n + 3) / 4))).2 },
        results := run.results ++ [B + totalBlocks run.live + sizeofHeader],
        live := (B + totalBlocks run.live + sizeofHeader, 4 * ((n + 3) / 4)) :: run.live },
      ?_, ?_⟩
    · unfold stepCall
      simp only [heq, if_neg hp, hr]
    · unfold sizeofHeader at hfit hs hnx
      constructor
      · exact hinv.init
      · exact hinv.policy
      · simp only [totalBlocks, sizeofHeader]; omega
      · simp only [sizeofHeader]; exact hnx
      · simp only [totalBlocks, sizeofHeader, sizeofNode]; rw [hs]; omega
      · simp only [totalBlocks, sizeofHeader, sizeofNode]; omega
      · exact ⟨rfl, hinv.stacked⟩
      · intro b hb
        rcases List.mem_cons.1 hb with rfl | hb
        · exact ⟨by simp only; omega, hd⟩
        · exact hinv.sizes b hb
      · have hp2 : decide (B + totalBlocks run.live + 8 ≠ 0) = true := by
          rw [decide_eq_true_eq]; omega
        simp only [List.filter_append, List.map_cons, List.reverse_cons, hinv.returned,
          sizeofHeader, List.filter_cons, hp2, if_true, List.filter_nil]
      · have hSr : R - 8 - totalBlocks run.live < 2147483648 := by
          rw [← hsz]; unfold getSize toInt; omega
        have hsf := split_fields run.state.mem (B + totalBlocks run.live) (4 * ((n + 3) / 4))
          (R - 8 - totalBlocks run.live) 0 (by omega) (by omega) (by omega) (by omega)
          (by rw [← hinv.head]; exact hsz) (by rw [← hinv.head]; exact hinv.next) (by omega)
        have hbd := stacked_bounds B run.live hinv.stacked hinv.sizes
        intro b hb
        rcases List.mem_cons.1 hb with rfl | hb
        · simp only [sizeofHeader]
          rw [show B + totalBlocks run.live + 8 - 8 = B + totalBlocks run.live by omega]
          exact ⟨hsf.2.1, hsf.2.2.1⟩
        · have h1 := hbd b hb
          have h2 := (hinv.sizes b hb).1
          have h3 := hinv.headers b hb
          unfold sizeofHeader at h1 h3 ⊢
          have hc : toUInt (b.1 - 8 + 4) = b.1 - 4 := by unfold toUInt; omega
          simp only [getSize, getValCheck, hc] at h3 ⊢
          rw [hsf.2.2.2.2.2.2 (b.1 - 8) (by omega) (by omega) (by omega) (by omega),
            hsf.2.2.2.2.2.2 (b.1 - 4) (by omega) (by omega) (by omega) (by omega)]
          exact h3
      · exact hinv.disc
  · have heq := hal.1 (by omega)
    refine ⟨{ run with results := run.results ++ [0] }, ?_, ?_⟩
    · unfold stepCall
      simp only [heq, if_true]
    · refine ⟨hinv.init, hinv.policy, hinv.head, hinv.next, hinv.size, hinv.room,
        hinv.stacked, hinv.sizes, ?_, hinv.headers, hinv.disc⟩
      simp only [List.filter_append, hinv.returned, List.filter_cons, List.filter_nil]
      simp

/-- Any sequence of `Mem_Alloc` calls keeps the shape of an allocate-only
run. -/
theorem allocOnly_run (fuel : Nat) (B R : Int) (hB0 : 0 < B) (hBR : B + R ≤ 4294967296) :
    ∀ (ns : List Int) (run : Run), AllocOnly B R run →
      (∀ n ∈ ns, 0 < n ∧ n < 2147483648) →
      ∃ run', runCalls fuel run (ns.map Call.alloc) = .ok run' ∧ AllocOnly B R run' := by
  intro ns
  induction ns with
  | nil => intro run hinv _; exact ⟨run, rfl, hinv⟩
  | cons n ns ih =>
    intro run hinv hns
    obtain ⟨h0, h1⟩ := hns n (List.mem_cons_self _ _)
    obtain ⟨run1, hstep, hinv1⟩ := allocOnly_step fuel B R run n hB0 hBR hinv h0 h1
    obtain ⟨run2, hrun, hinv2⟩ := ih run1 hinv1 (fun x hx => hns x (List.mem_cons_of_mem _ hx))
    refine ⟨run2, ?_, hinv2⟩
    simp only [List.map_cons, runCalls, hstep, hrun]

/-- C19: on a region of `R` bytes at base `B` fresh from `Mem_Init` (under any
of the three policies), every sequence of `Mem_Alloc` calls returns; afterwards
the free list is the single node `B + T` of size `R - sizeof(node_t) - T >= 0`,
where `T` adds `r + sizeof(header)` over the successful calls with rounded
sizes `r`; the non-null results are, in call order, the pointers of the blocks;
each pointer is `B`, plus what the earlier blocks take, plus
`sizeof(header)`; the payloads `[ptr, ptr + r)` are pairwise disjoint, disjoint
from the metadata of the free node and contained in `[B, B + R)`. -/
theorem C19_alloc_only_runs (fuel : Nat) (page B : Int) (s : State)
    (region_size policy R : Int) (ns : List Int)
    (hrs : 0 < region_size) (hpol : policy = 1 ∨ policy = 2 ∨ policy = 3)
    (hpage : 0 < page) (hinit : s.memHasInit = 0)
    (hdvd : page ∣ R) (hge : region_size ≤ R) (hleast : R < region_size + page)
    (hint : R < 2147483648) (hR8 : sizeofNode ≤ R)
    (hB0 : 0 < B) (hBR : B + R ≤ 4294967296)
    (hns : ∀ n ∈ ns, 0 < n ∧ n < 2147483648) :
    ∃ run, runCalls fuel ⟨(Mem_Init page B s region_size policy).2, [], [], true⟩
        (ns.map Call.alloc) = .ok run
      ∧ run.state.head = B + totalBlocks run.live
      ∧ freeList run.state.mem 2 run.state.head
          = some [(B + totalBlocks run.live, R - sizeofNode - totalBlocks run.live)]
      ∧ 0 ≤ R - sizeofNode - totalBlocks run.live
      ∧ run.results.filter (fun p => decide (p ≠ 0)) = (run.live.map Prod.fst).reverse
      ∧ Stacked B run.live
      ∧ run.live.Pairwise (fun a b => spanDisjoint (payload a) (payload b))
      ∧ ∀ b ∈ run.live, 4 ∣ b.2
          ∧ spanDisjoint (payload b) (run.state.head, run.state.head + sizeofNode)
          ∧ B ≤ (payload b).1 ∧ (payload b).2 ≤ B + R := by
  unfold sizeofNode at hR8
  obtain ⟨s0, hs0, hhead, hnext, hsize, _, hp, hi, _⟩ :=
    Mem_Init_fresh page B s region_size policy R hrs hpol hpage hinit hdvd hge hleast hint
      hB0 (by omega)
  have hinv0 : AllocOnly B R ⟨(Mem_Init page B s region_size policy).2, [], [], true⟩ := by
    rw [hs0]
    refine ⟨hi, by rw [hp]; exact hpol, ?_, hnext, ?_, ?_, trivial, ?_, rfl, ?_, rfl⟩
    · simp only [totalBlocks]; rw [hhead]; omega
    · simp only [totalBlocks]; rw [hsize]; omega
    · simp only [totalBlocks, sizeofNode]; omega
    · intro b hb; cases hb
    · intro b hb; cases hb
  obtain ⟨run, hrun, hinv⟩ := allocOnly_run fuel B R hB0 hBR ns _ hinv0 hns
  have hnn := totalBlocks_nonneg run.live hinv.sizes
  have hroom := hinv.room
  have hbd := stacked_bounds B run.live hinv.stacked hinv.sizes
  unfold sizeofNode at hroom
  refine ⟨run, hrun, hinv.head, ?_, hinv.room, hinv.returned, hinv.stacked,
    stacked_pairwise B run.live hinv.stacked hinv.sizes, ?_⟩
  · have hne : run.state.head ≠ 0 := by rw [hinv.head]; omega
    simp only [freeList, if_neg hne, hinv.next, hinv.size, if_true, Option.map_some']
    rw [hinv.head]
  · intro b hb
    have h1 := hbd b hb
    unfold sizeofHeader at h1
    refine ⟨(hinv.sizes b hb).2, Or.inl ?_, ?_, ?_⟩
    · simp only [payload]; rw [hinv.head]; omega
    · simp only [payload]; omega
    · simp only [payload, sizeofNode]; omega

/-- C19 at a concrete input: a 4096-byte region at `base`, policy 3, and the
requests 100, 5000, 100. -/
theorem C19_alloc_only_runs_witness :
    ∃ run, runCalls 0 ⟨(Mem_Init 4096 base State.start 4096 3).2, [], [], true⟩
        ([100, 5000, 100].map Call.alloc) = .ok run
      ∧ run.state.head = base + totalBlocks run.live
      ∧ freeList run.state.mem 2 run.state.head
          = some [(base + totalBlocks run.live, 4096 - sizeofNode - totalBlocks run.live)]
      ∧ 0 ≤ 4096 - sizeofNode - totalBlocks run.live
      ∧ run.results.filter (fun p => decide (p ≠ 0)) = (run.live.map Prod.fst).reverse
      ∧ Stacked base run.live
      ∧ run.live.Pairwise (fun a b => spanDisjoint (payload a) (payload b))
      ∧ ∀ b ∈ run.live, 4 ∣ b.2
          ∧ spanDisjoint (payload b) (run.state.head, run.state.head + sizeofNode)
          ∧ base ≤ (payload b).1 ∧ (payload b).2 ≤ base + 4096 :=
  C19_alloc_only_runs 0 4096 base State.start 4096 3 4096 [100, 5000, 100] (by decide)
    (by decide) (by decide) (by decide) (by decide) (by decide) (by decide) (by decide)
    (by decide) (by decide) (by decide) (by decide)


/-! ## Free lists as chains of nodes -/

theorem lastOr_append_singleton (d : Int) (l : List Int) (x : Int) :
    lastOr d (l ++ [x]) = x := by
  induction l generalizing d with
  | nil => rfl
  | cons y ys ih => exact ih y

theorem isSeg_append (m : Memory) (l1 l2 : List Int) (p q : Int) :
    IsSeg m p (l1 ++ l2) q ↔ ∃ r, IsSeg m p l1 r ∧ IsSeg m r l2 q := by
  induction l1 generalizing p with
  | nil =>
    constructor
    · intro h; exact ⟨p, rfl, h⟩
    · rintro ⟨r, hr, h⟩
      have : p = r := hr
      rw [this]; exact h
  | cons x xs ih =>
    constructor
    · rintro ⟨h1, h2, h3⟩
      obtain ⟨r, hr1, hr2⟩ := (ih _).1 h3
      exact ⟨r, ⟨h1, h2, hr1⟩, hr2⟩
    · rintro ⟨r, ⟨h1, h2, h3⟩, hr2⟩
      exact ⟨h1, h2, (ih _).2 ⟨r, h3, hr2⟩⟩

/-- The `next` field of `x` is not affected by a store to another cell. -/
theorem getNext_store (m : Memory) (c v x : Int) (h : toUInt (x + 4) ≠ c) :
    getNext (store m c v) x = getNext m x := by
  simp only [getNext, store_other _ _ _ _ h]

/-- A segment survives a store that hits none of its `next` fields. -/
theorem isSeg_store (m : Memory) (c v : Int) (l : List Int) (p q : Int)
    (hc : ∀ x ∈ l, toUInt (x + 4) ≠ c) (h : IsSeg m p l q) :
    IsSeg (store m c v) p l q := by
  induction l generalizing p with
  | nil => exact h
  | cons x xs ih =>
    obtain ⟨h1, h2, h3⟩ := h
    refine ⟨h1, h2, ?_⟩
    rw [getNext_store m c v x (hc x (List.mem_cons_self _ _))]
    exact ih _ (fun y hy => hc y (List.mem_cons_of_mem _ hy)) h3

/-- Cells of the `next` fields of two different nodes are different. -/
theorem next_cell_ne (x y : Int) (hx : 0 < x ∧ x + 4 < 4294967296)
    (hy : 0 < y ∧ y + 4 < 4294967296) (h : x ≠ y) : toUInt (x + 4) ≠ toUInt (y + 4) := by
  unfold toUInt; omega

theorem next_cell_eq (x : Int) (hx : 0 < x ∧ x + 4 < 4294967296) : toUInt (x + 4) = x + 4 := by
  unfold toUInt; omega

/-- The scan of `insertNode` walks over the nodes that are not below `inNode`
and stops at the first node below it, or at `NULL`. -/
theorem insertLoop_spec (m : Memory) (a : Int) (l : List Int) :
    ∀ (p q prev : Int) (fuel : Nat), IsSeg m p l q → (∀ x ∈ l, x ≥ a) →
      ¬ (q ≠ 0 ∧ q ≥ a) → l.length < fuel →
      insertLoop m a fuel prev p = .ok (lastOr prev l, q) := by
  induction l with
  | nil =>
    intro p q prev fuel hseg _ hstop hfuel
    have hpq : p = q := hseg
    subst hpq
    cases fuel with
    | zero => simp at hfuel
    | succ k =>
      unfold insertLoop
      rw [if_neg hstop]
      rfl
  | cons x xs ih =>
    intro p q prev fuel hseg hall hstop hfuel
    obtain ⟨h1, h2, h3⟩ := hseg
    subst h1
    cases fuel with
    | zero => simp at hfuel
    | succ k =>
      unfold insertLoop
      rw [if_pos ⟨h2, hall p (List.mem_cons_self _ _)⟩]
      have := ih (getNext m p) q p k h3 (fun y hy => hall y (List.mem_cons_of_mem _ hy)) hstop
        (by simp only [List.length_cons] at hfuel; omega)
      rw [this]
      rfl

/-- A strictly decreasing list splits around an absent address. -/
theorem decreasing_split (a : Int) (l : List Int) (hdec : Decreasing l) (ha : a ∉ l) :
    ∃ l1 l2, l = l1 ++ l2 ∧ (∀ x ∈ l1, a < x) ∧ (∀ x ∈ l2, x < a) := by
  induction l with
  | nil => exact ⟨[], [], rfl, (fun x hx => by cases hx), (fun x hx => by cases hx)⟩
  | cons y ys ih =>
    have hd := List.pairwise_cons.1 hdec
    have hay : a ≠ y := fun h => ha (h ▸ List.mem_cons_self _ _)
    by_cases hlt : a < y
    · obtain ⟨l1, l2, hl, h1, h2⟩ := ih hd.2 (fun h => ha (List.mem_cons_of_mem _ h))
      refine ⟨y :: l1, l2, by rw [hl]; rfl, ?_, h2⟩
      intro x hx
      rcases List.mem_cons.1 hx with rfl | hx
      · exact hlt
      · exact h1 x hx
    · refine ⟨[], y :: ys, rfl, (fun x hx => by cases hx), ?_⟩
      intro x hx
      rcases List.mem_cons.1 hx with rfl | hx
      · omega
      · have := hd.1 x hx
        omega

/-- Assembling a chain in which `a` follows `pv`. -/
theorem isChain_insert_after (m : Memory) (p pv a q : Int) (l0 l2 : List Int)
    (h0 : IsSeg m p l0 pv) (hpv : pv ≠ 0) (hpa : getNext m pv = a) (ha : a ≠ 0)
    (haq : getNext m a = q) (h2 : IsSeg m q l2 0) :
    IsChain m p ((l0 ++ [pv]) ++ a :: l2) := by
  unfold IsChain
  rw [isSeg_append]
  refine ⟨a, ?_, ?_⟩
  · rw [isSeg_append]
    exact ⟨pv, h0, rfl, hpv, hpa⟩
  · exact ⟨rfl, ha, by rw [haq]; exact h2⟩

/-- Effect of `insertNode` on a non-empty, strictly decreasing free list `l`
that does not contain `a`, where `a->next` is `NULL`: with fuel beyond the
length of the list the call returns, and `a` sits between the nodes above it
and the nodes below it. -/
theorem insertNode_spec (fuel : Nat) (s : State) (a : Int) (l : List Int)
    (hchain : IsChain s.mem s.head l) (hne : l ≠ [])
    (hdec : Decreasing l) (hrange : InRange l)
    (ha : 0 < a ∧ a + 4 < 4294967296) (hal : a ∉ l)
    (hnext : getNext s.mem a = 0) (hfuel : l.length < fuel) :
    ∃ s' l1 l2, insertNode fuel s a = .ok s' ∧ l = l1 ++ l2
      ∧ (∀ x ∈ l1, a < x) ∧ (∀ x ∈ l2, x < a)
      ∧ IsChain s'.mem s'.head (l1 ++ a :: l2)
      ∧ s'.head = (if l1 = [] then a else s.head)
      ∧ s'.memHasInit = s.memHasInit ∧ s'.policyType = s.policyType
      ∧ (∀ c, c ≠ a + 4 → (∀ x ∈ l, c ≠ x + 4) → s'.mem c = s.mem c) := by
  obtain ⟨l1, l2, hl, h1, h2⟩ := decreasing_split a l hdec hal
  subst hl
  obtain ⟨q, hs1, hs2⟩ := (isSeg_append _ _ _ _ _).1 hchain
  have ha0 : a ≠ 0 := by omega
  have hacell := next_cell_eq a ha
  have hr1 : ∀ x ∈ l1, 0 < x ∧ x + 4 < 4294967296 :=
    fun x hx => hrange x (List.mem_append_left _ hx)
  have hr2 : ∀ x ∈ l2, 0 < x ∧ x + 4 < 4294967296 :=
    fun x hx => hrange x (List.mem_append_right _ hx)
  have hstop : ¬ (q ≠ 0 ∧ q ≥ a) := by
    cases l2 with
    | nil =>
      have : q = 0 := hs2
      simp [this]
    | cons y ys =>
      have hq : q = y := hs2.1
      have := h2 y (List.mem_cons_self _ _)
      rw [hq]; intro h; omega
  have hloop := insertLoop_spec s.mem a l1 s.head q 0 fuel hs1
    (fun x hx => le_of_lt (h1 x hx)) hstop
    (by simp only [List.length_append] at hfuel; omega)
  -- frame facts for the nodes below `a`
  have hfr2 : ∀ (m' : Memory) (c v : Int), (c = a + 4 ∨ ∃ x ∈ l1, c = x + 4) →
      IsSeg m' q l2 0 → IsSeg (store m' c v) q l2 0 := by
    intro m' c v hc h
    refine isSeg_store m' c v l2 q 0 ?_ h
    intro x hx
    rw [next_cell_eq x (hr2 x hx)]
    rcases hc with rfl | ⟨z, hz, rfl⟩
    · have := h2 x hx; omega
    · have := h2 x hx; have := h1 z hz; omega
  rcases List.eq_nil_or_concat l1 with hnil | ⟨l0, pv, hcat⟩
  · -- `a` is above every node: it becomes the head
    subst hnil
    have hq : s.head = q := hs1
    cases l2 with
    | nil => exact absurd rfl hne
    | cons y ys =>
      have hqy : q = y := hs2.1
      have hy0 : y ≠ 0 := hs2.2.1
      refine ⟨{ s with head := a, mem := setNext s.mem a s.head }, [], y :: ys, ?_, rfl, h1, h2,
        ?_, by simp, rfl, rfl, ?_⟩
      · unfold insertNode
        rw [hloop]
        simp only [lastOr, if_neg (by rw [hqy]; exact hy0 : ¬ q = 0), if_true]
      · refine ⟨rfl, ha0, ?_⟩
        have hyr := hr2 y (List.mem_cons_self _ _)
        have hget : getNext (setNext s.mem a s.head) a = q := by
          simp only [getNext, setNext, store_same]
          rw [hq, hqy]; unfold toUInt; omega
        rw [hget]
        simp only [setNext, hacell]
        exact hfr2 s.mem (a + 4) s.head (Or.inl rfl) hs2
      · intro c hc _
        simp only [setNext, hacell, store_other _ _ _ _ hc]
  · -- `a` follows the node `pv`
    rw [List.concat_eq_append] at hcat
    subst hcat
    obtain ⟨r, hs0, hrpv, hpv0, hpvq⟩ := (isSeg_append _ _ _ _ _).1 hs1
    have hpvq : getNext s.mem pv = q := hpvq
    subst hrpv
    have hpvmem : r ∈ l0 ++ [r] := List.mem_append_right _ (List.mem_singleton_self _)
    have hpvr := hr1 r hpvmem
    have hpva : a < r := h1 r hpvmem
    have hpvcell := next_cell_eq r hpvr
    have hlast : lastOr 0 (l0 ++ [r]) = r := lastOr_append_singleton 0 l0 r
    have hdec1 : Decreasing (l0 ++ [r]) := (List.pairwise_append.1 hdec).1
    have hl0 : ∀ x ∈ l0, r < x := by
      intro x hx
      exact (List.pairwise_append.1 hdec1).2.2 x hx r (List.mem_singleton_self _)
    have hfr0 : ∀ (m' : Memory) (c v : Int), (c = a + 4 ∨ c = r + 4) →
        IsSeg m' s.head l0 r → IsSeg (store m' c v) s.head l0 r := by
      intro m' c v hc h
      refine isSeg_store m' c v l0 s.head r ?_ h
      intro x hx
      rw [next_cell_eq x (hr1 x (List.mem_append_left _ hx))]
      have := hl0 x hx
      rcases hc with rfl | rfl <;> omega
    have hqr : 0 ≤ q ∧ q < 4294967296 := by
      rw [← hpvq]; unfold getNext toUInt; omega
    have hne1 : r + 4 ≠ a + 4 := by omega
    have hne2 : a + 4 ≠ r + 4 := by omega
    by_cases hq0 : q = 0
    · -- end of the list reached: only `pv->next` is written
      refine ⟨{ s with mem := setNext s.mem r a }, l0 ++ [r], l2, ?_, rfl, h1, h2, ?_, ?_,
        rfl, rfl, ?_⟩
      · unfold insertNode
        rw [hloop, hlast]
        simp only [hq0, if_true, if_neg hpv0]
      · simp only [setNext, hpvcell]
        refine isChain_insert_after _ s.head r a q l0 l2 (hfr0 _ _ _ (Or.inr rfl) hs0) hpv0 ?_
          ha0 ?_ (hfr2 _ _ _ (Or.inr ⟨r, hpvmem, rfl⟩) hs2)
        · simp only [getNext, hpvcell, store_same]; unfold toUInt; omega
        · simp only [getNext, hacell, store_other _ _ _ _ hne2]
          have := hnext
          simp only [getNext, hacell] at this
          rw [this, hq0]
      · simp
      · intro c _ hc
        have : c ≠ r + 4 := hc r (List.mem_append_left _ hpvmem)
        simp only [setNext, hpvcell, store_other _ _ _ _ this]
    · -- in the middle of the list
      refine ⟨{ s with mem := setNext (setNext s.mem a (getNext s.mem r)) r a }, l0 ++ [r], l2,
        ?_, rfl, h1, h2, ?_, ?_, rfl, rfl, ?_⟩
      · unfold insertNode
        rw [hloop, hlast]
        simp only [if_neg hq0, if_neg hpv0]
      · simp only [setNext, hpvcell, hacell]
        refine isChain_insert_after _ s.head r a q l0 l2
          (hfr0 _ _ _ (Or.inr rfl) (hfr0 _ _ _ (Or.inl rfl) hs0)) hpv0 ?_ ha0 ?_
          (hfr2 _ _ _ (Or.inr ⟨r, hpvmem, rfl⟩) (hfr2 _ _ _ (Or.inl rfl) hs2))
        · simp only [getNext, hpvcell, store_same]; unfold toUInt; omega
        · simp only [getNext, hacell, store_other _ _ _ _ hne2, store_same, hpvcell]
          have := hpvq
          simp only [getNext, hpvcell] at this
          rw [this]; unfold toUInt; omega
      · simp
      · intro c hca hc
        have : c ≠ r + 4 := hc r (List.mem_append_left _ hpvmem)
        simp only [setNext, hpvcell, hacell, store_other _ _ _ _ this, store_other _ _ _ _ hca]

theorem lastOr_mem (d : Int) (l : List Int) (hne : l ≠ []) : lastOr d l ∈ l := by
  induction l generalizing d with
  | nil => exact absurd rfl hne
  | cons x xs ih =>
    cases xs with
    | nil => exact List.mem_cons_self _ _
    | cons y ys => exact List.mem_cons_of_mem _ (ih x (List.cons_ne_nil _ _))

theorem lastOr_append_cons (d a : Int) (l1 l2 : List Int) :
    lastOr d (l1 ++ a :: l2) = lastOr a l2 := by
  induction l1 generalizing d with
  | nil => rfl
  | cons x xs ih => exact ih x

/-- Putting `a` between the nodes above it and the nodes below it keeps a
strictly decreasing list strictly decreasing. -/
theorem decreasing_insert (a : Int) (l1 l2 : List Int) (hdec : Decreasing (l1 ++ l2))
    (h1 : ∀ x ∈ l1, a < x) (h2 : ∀ x ∈ l2, x < a) : Decreasing (l1 ++ a :: l2) := by
  unfold Decreasing at hdec ⊢
  obtain ⟨hp1, hp2, hp12⟩ := List.pairwise_append.1 hdec
  refine List.pairwise_append.2 ⟨hp1, List.pairwise_cons.2 ⟨h2, hp2⟩, ?_⟩
  intro x hx y hy
  rcases List.mem_cons.1 hy with rfl | hy
  · exact h1 x hx
  · exact hp12 x hx y hy

/-- C20: for a non-empty free list whose node addresses strictly decrease along
`next`, and a node address `a` that is not in the list and whose `next` field
is `NULL` (all nodes inside the address space), `insertNode(a)` returns when
given fuel beyond the length of the list, and the new list consists of the old
nodes and `a`, each once, with addresses still strictly decreasing; `a` is the
new head exactly when `a` is above the old head, and the last node exactly
when `a` is below every old node. -/
theorem C20_insert_keeps_decreasing (fuel : Nat) (s : State) (a : Int) (l : List Int)
    (hchain : IsChain s.mem s.head l) (hne : l ≠ [])
    (hdec : Decreasing l) (hrange : InRange l)
    (ha : 0 < a ∧ a + 4 < 4294967296) (hal : a ∉ l)
    (hnext : getNext s.mem a = 0) (hfuel : l.length < fuel) :
    ∃ s' l', insertNode fuel s a = .ok s'
      ∧ IsChain s'.mem s'.head l'
      ∧ l'.Perm (a :: l) ∧ l'.Nodup
      ∧ Decreasing l'
      ∧ (s'.head = a ↔ s.head < a)
      ∧ (lastOr 0 l' = a ↔ ∀ x ∈ l, a < x) := by
  obtain ⟨s', l1, l2, hins, hl, h1, h2, hch, hhead, _, _, _⟩ :=
    insertNode_spec fuel s a l hchain hne hdec hrange ha hal hnext hfuel
  subst hl
  have hdec' := decreasing_insert a l1 l2 hdec h1 h2
  refine ⟨s', l1 ++ a :: l2, hins, hch, List.perm_middle, ?_, hdec', ?_, ?_⟩
  · exact hdec'.imp (fun h => (ne_of_lt h).symm)
  · rw [hhead]
    cases l1 with
    | nil =>
      cases l2 with
      | nil => exact absurd rfl hne
      | cons y ys =>
        have hy : s.head = y := hchain.1
        have := h2 y (List.mem_cons_self _ _)
        simp only [if_true, true_iff]
        omega
    | cons y ys =>
      have hy : s.head = y := hchain.1
      have := h1 y (List.mem_cons_self _ _)
      simp only [if_neg (List.cons_ne_nil y ys)]
      constructor
      · intro h; omega
      · intro h; omega
  · rw [lastOr_append_cons]
    cases l2 with
    | nil =>
      simp only [lastOr, true_iff, List.append_nil]
      exact h1
    | cons y ys =>
      have hmem := lastOr_mem a (y :: ys) (List.cons_ne_nil _ _)
      have hlt := h2 _ hmem
      constructor
      · intro h; omega
      · intro h
        have := h y (List.mem_append_right _ (List.mem_cons_self _ _))
        have := h2 y (List.mem_cons_self _ _)
        omega

/-- C20 at a concrete input: inserting `base + 200` into the one-node list of
a fresh 4096-byte region. -/
theorem C20_insert_keeps_decreasing_witness :
    ∃ s' l', insertNode 2 (afterInit base 4096 3).state (base + 200) = .ok s'
      ∧ IsChain s'.mem s'.head l'
      ∧ l'.Perm ((base + 200) :: [base]) ∧ l'.Nodup
      ∧ Decreasing l'
      ∧ (s'.head = base + 200 ↔ (afterInit base 4096 3).state.head < base + 200)
      ∧ (lastOr 0 l' = base + 200 ↔ ∀ x ∈ [base], base + 200 < x) :=
  C20_insert_keeps_decreasing 2 (afterInit base 4096 3).state (base + 200) [base]
    (by decide) (by decide) (by decide) (by decide) (by decide) (by decide) (by decide)
    (by decide)


/-! ## Order of the free list -/

/-- C11 as stated fails on the code: after `Mem_Init(4096, 1)`,
`p = Mem_Alloc(100)` and `Mem_Free(p)` the free list is `base + 108` followed
by `base`: the head has a larger address than its `next` node, so the list is
not in increasing order, and the freed node `base`, the lowest of all, is the
last node and not the head. The decreasing order that `insertNode` keeps is
not an invariant of all reachable states either: after `Mem_Init(4096, 2)`,
two allocations of 8 bytes and the release of both, `Mem_Alloc(12)` leaves the
list `base + 32` followed by `base + 36`, which is not decreasing; and on a
region longer than its base address, after `Mem_Init(2147479552, 1)` and
`p = Mem_Alloc(1073741816)`, the call `Mem_Free(p)` dereferences `NULL` in
`mergeNode`. -/
theorem C11_list_is_not_increasing :
    observe (runCalls 16 (afterInit base 4096 P_BESTFIT) [.alloc 100, .free (base + 8)])
      = some ⟨[base + 8, 0], true, [], some [(base + 108, 3980), (base, 108)]⟩
    ∧ (runCalls 16 (afterInit base 4096 P_BESTFIT)
        [.alloc 100, .free (base + 8)]).toOption.map (fun r => r.state.head)
      = some (base + 108)
    ∧ ¬ List.Pairwise (fun a b : Int => a < b) [base + 108, base]
    ∧ base + 8 - sizeofHeader = base
    ∧ base < base + 108
    ∧ observe (runCalls 16 (afterInit base 4096 P_WORSTFIT)
        [.alloc 8, .alloc 8, .free (base + 8), .free (base + 24), .alloc 12])
      = some ⟨[base + 8, base + 24, 0, 0, base + 24], true, [(base + 24, 12)],
          some [(base + 32, 4056), (base + 36, base + 36)]⟩
    ∧ ¬ Decreasing [base + 32, base + 36]
    ∧ observe (runCalls 16 (afterInit base 2147479552 P_BESTFIT) [.alloc 1073741816])
      = some ⟨[base + 8], true, [(base + 8, 1073741816)],
          some [(base + 1073741824, 1073737720)]⟩
    ∧ faultOf (runCalls 16 (afterInit base 2147479552 P_BESTFIT)
        [.alloc 1073741816, .free (base + 8)]) = some Fault.nullDeref := by
  decide


/-! ## Frees after the allocations -/

theorem sumSizes_congr (m m' : Memory) (l : List Int) (h : ∀ x ∈ l, m' x = m x) :
    sumSizes m' l = sumSizes m l := by
  induction l with
  | nil => rfl
  | cons x xs ih =>
    simp only [sumSizes, getSize, h x (List.mem_cons_self _ _)]
    rw [ih (fun y hy => h y (List.mem_cons_of_mem _ hy))]

theorem sumSizes_append (m : Memory) (l1 l2 : List Int) :
    sumSizes m (l1 ++ l2) = sumSizes m l1 + sumSizes m l2 := by
  induction l1 with
  | nil => simp [sumSizes]
  | cons x xs ih =>
    show getSize m x + sumSizes m (xs ++ l2) = _
    rw [ih]; simp only [sumSizes]; omega

theorem sumSizes_nonneg (m : Memory) (l : List Int) (h : ∀ x ∈ l, 0 < getSize m x) :
    0 ≤ sumSizes m l := by
  induction l with
  | nil => simp [sumSizes]
  | cons x xs ih =>
    have h1 := h x (List.mem_cons_self _ _)
    have h2 := ih (fun y hy => h y (List.mem_cons_of_mem _ hy))
    simp only [sumSizes]; omega

/-- The search loop of `mergeNode` returns the node in front of `curr` when the
fuel exceeds the number of nodes in front of it. -/
theorem findPrevLoop_total (m : Memory) (curr : Int) (l : List Int) :
    ∀ (p prev : Int) (fuel : Nat), IsSeg m p l curr → curr ∉ l → l.length < fuel →
      findPrevLoop m curr fuel prev p = .ok (lastOr prev l) := by
  induction l with
  | nil =>
    intro p prev fuel hseg _ hfuel
    have hp : p = curr := hseg
    cases fuel with
    | zero => simp at hfuel
    | succ k =>
      unfold findPrevLoop
      rw [if_neg (by simp [hp])]
      rfl
  | cons x xs ih =>
    intro p prev fuel hseg hnot hfuel
    obtain ⟨h1, h2, h3⟩ := hseg
    subst h1
    have hpc : p ≠ curr := fun h => hnot (h ▸ List.mem_cons_self _ _)
    cases fuel with
    | zero => simp at hfuel
    | succ k =>
      unfold findPrevLoop
      rw [if_pos hpc, if_neg h2]
      exact ih _ p k h3 (fun h => hnot (List.mem_cons_of_mem _ h))
        (by simp only [List.length_cons] at hfuel; omega)

/-- `mergeNode` when neither merge test holds: nothing changes. -/
theorem mergeNode_stop (fuel : Nat) (s : State) (a : Int) (pre : List Int)
    (hseg : IsSeg s.mem s.head pre a) (hnot : a ∉ pre) (ha0 : a ≠ 0)
    (hfuel : pre.length < fuel)
    (hc1 : ¬ toInt (toInt a - getSize s.mem a) = toInt (getNext s.mem a))
    (hc2 : ¬ toInt (lastOr 0 pre) = toInt (toInt a - getSize s.mem a)) :
    mergeNode fuel s a = .ok (0, a, s) := by
  unfold mergeNode
  simp only [if_neg ha0, if_neg hc1,
    findPrevLoop_total s.mem a pre s.head 0 fuel hseg hnot hfuel, if_neg hc2]

/-- `mergeNode` when the first merge test holds and the successor is not
`NULL`: the node absorbs its successor. -/
theorem mergeNode_absorb (fuel : Nat) (s : State) (a : Int) (ha0 : a ≠ 0)
    (hc1 : toInt (toInt a - getSize s.mem a) = toInt (getNext s.mem a))
    (hnx : getNext s.mem a ≠ 0) :
    mergeNode fuel s a
      = .ok (1, a, { s with mem :=
          (setNext (setSize s.mem a (toInt (getSize s.mem a + getSize s.mem (getNext s.mem a)))) a
            (getNext (setSize s.mem a
                (toInt (getSize s.mem a + getSize s.mem (getNext s.mem a))))
              (getNext (setSize s.mem a
                (toInt (getSize s.mem a + getSize s.mem (getNext s.mem a)))) a))) }) := by
  unfold mergeNode
  simp only [if_neg ha0, if_pos hc1, if_neg hnx]

/-- The merge loop ends at once when the first merge test fails on a node
whose size is positive and below its own address. -/
theorem mergeLoop_stop (inner k : Nat) (s : State) (a : Int) (pre l2 : List Int)
    (hchain : IsChain s.mem s.head (pre ++ a :: l2)) (hdec : Decreasing (pre ++ a :: l2))
    (hrange : InRange (pre ++ a :: l2)) (hpre : pre ≠ []) (hinner : pre.length < inner)
    (hz0 : 0 < getSize s.mem a) (hz1 : getSize s.mem a < a)
    (hc1 : ¬ toInt (toInt a - getSize s.mem a) = toInt (getNext s.mem a)) :
    mergeLoop inner (k + 1) s a = .ok s := by
  obtain ⟨r, hseg, hra, ha0, _⟩ := (isSeg_append _ _ _ _ _).1 hchain
  subst hra
  have hcross := (List.pairwise_append.1 hdec).2.2
  have hamem : r ∈ pre ++ r :: l2 := List.mem_append_right _ (List.mem_cons_self _ _)
  have har := hrange r hamem
  have hnot : r ∉ pre := fun h => by
    have := hcross r h r (List.mem_cons_self _ _); omega
  have hpv := lastOr_mem 0 pre hpre
  have hpvgt := hcross _ hpv r (List.mem_cons_self _ _)
  have hpvr := hrange _ (List.mem_append_left _ hpv)
  have hc2 : ¬ toInt (lastOr 0 pre) = toInt (toInt r - getSize s.mem r) := by
    generalize lastOr 0 pre = pv at hpvgt hpvr
    generalize getSize s.mem r = z at hz0 hz1
    unfold toInt; omega
  unfold mergeLoop
  rw [mergeNode_stop inner s r pre hseg hnot ha0 hinner hc1 hc2]
  simp

/-- The merge loop of `Mem_Free` on a node `a` that is not the head, in a
strictly decreasing, separated list whose sizes below `a` are positive and add
up to less than `a`: the loop returns, `a` stays in place and absorbs some of
the nodes that follow it, and only the two fields of `a` are written. -/
theorem mergeLoop_absorbs (inner : Nat) (a : Int) (pre : List Int) (bound : Int)
    (hpre : pre ≠ []) (hinner : pre.length < inner) (hb1 : bound < a)
    (hb2 : bound < 2147483648) :
    ∀ (l2 : List Int) (fuel : Nat) (s : State),
      IsChain s.mem s.head (pre ++ a :: l2) → Decreasing (pre ++ a :: l2) →
      InRange (pre ++ a :: l2) → Separated (pre ++ a :: l2) → l2.length < fuel →
      0 < getSize s.mem a → (∀ x ∈ l2, 0 < getSize s.mem x) →
      getSize s.mem a + sumSizes s.mem l2 ≤ bound →
      ∃ s' l2', mergeLoop inner fuel s a = .ok s'
        ∧ (∃ d, l2 = d ++ l2')
        ∧ IsChain s'.mem s'.head (pre ++ a :: l2')
        ∧ s'.head = s.head ∧ s'.memHasInit = s.memHasInit
        ∧ getSize s'.mem a + sumSizes s'.mem l2' = getSize s.mem a + sumSizes s.mem l2
        ∧ 0 < getSize s'.mem a
        ∧ (∀ c, c ≠ a → c ≠ a + 4 → s'.mem c = s.mem c) := by
  intro l2
  induction l2 with
  | nil =>
    intro fuel s hchain hdec hrange _ hfuel hz0 _ hsum
    cases fuel with
    | zero => simp at hfuel
    | succ k =>
      obtain ⟨r, _, hra, _, hnil⟩ := (isSeg_append _ _ _ _ _).1 hchain
      have hnx : getNext s.mem a = 0 := hnil
      have har := hrange a (List.mem_append_right _ (List.mem_cons_self _ _))
      simp only [sumSizes] at hsum
      have hc1 : ¬ toInt (toInt a - getSize s.mem a) = toInt (getNext s.mem a) := by
        rw [hnx]
        generalize getSize s.mem a = z at hz0 hsum
        unfold toInt; omega
      exact ⟨s, [], mergeLoop_stop inner k s a pre [] hchain hdec hrange hpre hinner hz0
        (by omega) hc1, ⟨[], rfl⟩, hchain, rfl, rfl, rfl, hz0, fun _ _ _ => rfl⟩
  | cons n l2r ih =>
    intro fuel s hchain hdec hrange hsep hfuel hz0 hpos hsum
    cases fuel with
    | zero => simp at hfuel
    | succ k =>
      have hnpos := hpos n (List.mem_cons_self _ _)
      have hrest := sumSizes_nonneg s.mem l2r (fun x hx => hpos x (List.mem_cons_of_mem _ hx))
      simp only [sumSizes] at hsum
      by_cases hc1 : toInt (toInt a - getSize s.mem a) = toInt (getNext s.mem a)
      · obtain ⟨r, hseg, hra, ha0, hnseg⟩ := (isSeg_append _ _ _ _ _).1 hchain
        subst hra
        obtain ⟨hnx, hn0, hseg2⟩ := hnseg
        have hamem : r ∈ pre ++ r :: n :: l2r :=
          List.mem_append_right _ (List.mem_cons_self _ _)
        have hnmem : n ∈ pre ++ r :: n :: l2r :=
          List.mem_append_right _ (List.mem_cons_of_mem _ (List.mem_cons_self _ _))
        have har := hrange r hamem
        have hnr := hrange n hnmem
        have hacell := next_cell_eq r har
        have hncell := next_cell_eq n hnr
        obtain ⟨_, hdpost, hcross⟩ := List.pairwise_append.1 hdec
        have hbelow : ∀ y ∈ n :: l2r, y < r := (List.pairwise_cons.1 hdpost).1
        have hrpre : ∀ x ∈ pre, 0 < x ∧ x + 4 < 4294967296 :=
          fun x hx => hrange x (List.mem_append_left _ hx)
        have hr2 : ∀ x ∈ l2r, 0 < x ∧ x + 4 < 4294967296 := fun x hx => hrange x
          (List.mem_append_right _ (List.mem_cons_of_mem _ (List.mem_cons_of_mem _ hx)))
        have hne1 : r + 4 ≠ r := by omega
        have hsepn : n + 4 ≠ r := fun h => hsep r hamem n hnmem h.symm
        have hnxn : getNext s.mem r ≠ 0 := by rw [hnx]; exact hn0
        have hg1 : getNext (setSize s.mem r
            (toInt (getSize s.mem r + getSize s.mem (getNext s.mem r)))) r = n := by
          simp only [getNext, setSize, hacell, store_other _ _ _ _ hne1]
          have := hnx
          simp only [getNext, hacell] at this
          exact this
        have hg2 : getNext (setSize s.mem r
            (toInt (getSize s.mem r + getSize s.mem (getNext s.mem r)))) n
            = getNext s.mem n := by
          simp only [getNext, setSize, hncell, store_other _ _ _ _ hsepn]
        have hidem : toUInt (getNext s.mem n) = getNext s.mem n := by
          unfold getNext toUInt; omega
        have hmerge := mergeNode_absorb inner s r ha0 hc1 hnxn
        rw [hg1, hg2] at hmerge
        have hnxeq : getNext s.mem r = n := hnx
        rw [hnxeq] at hmerge
        simp only [setNext, setSize, hacell] at hmerge
        -- the state after one merge
        have hsz1 : getSize (store (store s.mem r (toInt (getSize s.mem r + getSize s.mem n)))
            (r + 4) (getNext s.mem n)) r = getSize s.mem r + getSize s.mem n := by
          simp only [getSize, store_other _ _ _ _ (by omega : r ≠ r + 4), store_same]
          have h1 : toInt (toInt (s.mem r) + toInt (s.mem n)) = toInt (s.mem r) + toInt (s.mem n) :=
            toInt_eq_self (by simp only [getSize] at hz0 hnpos; omega)
              (by simp only [getSize] at hsum; omega)
          rw [h1]
          exact toInt_eq_self (by simp only [getSize] at hz0 hnpos; omega)
            (by simp only [getSize] at hsum; omega)
        have hcell2 : ∀ x ∈ l2r, (store (store s.mem r (toInt (getSize s.mem r + getSize s.mem n)))
            (r + 4) (getNext s.mem n)) x = s.mem x := by
          intro x hx
          have hxm : x ∈ pre ++ r :: n :: l2r :=
            List.mem_append_right _ (List.mem_cons_of_mem _ (List.mem_cons_of_mem _ hx))
          have h1 : x ≠ r := by have := hbelow x (List.mem_cons_of_mem _ hx); omega
          have h2 : x ≠ r + 4 := hsep x hxm r hamem
          rw [store_other _ _ _ _ h2, store_other _ _ _ _ h1]
        have hchain1 : IsChain (store (store s.mem r (toInt (getSize s.mem r + getSize s.mem n)))
            (r + 4) (getNext s.mem n)) s.head (pre ++ r :: l2r) := by
          unfold IsChain
          rw [isSeg_append]
          refine ⟨r, ?_, rfl, ha0, ?_⟩
          · refine isSeg_store _ _ _ _ _ _ ?_ (isSeg_store _ _ _ _ _ _ ?_ hseg)
            · intro x hx
              rw [next_cell_eq x (hrpre x hx)]
              have := hcross x hx r (List.mem_cons_self _ _)
              omega
            · intro x hx
              rw [next_cell_eq x (hrpre x hx)]
              exact fun h => hsep r hamem x (List.mem_append_left _ hx) h.symm
          · have hgm : getNext (store (store s.mem r
                (toInt (getSize s.mem r + getSize s.mem n))) (r + 4) (getNext s.mem n)) r
                = getNext s.mem n := by
              simp only [getNext, hacell, store_same]
              exact hidem
            rw [hgm]
            refine isSeg_store _ _ _ _ _ _ ?_ (isSeg_store _ _ _ _ _ _ ?_ hseg2)
            · intro x hx
              rw [next_cell_eq x (hr2 x hx)]
              have := hbelow x (List.mem_cons_of_mem _ hx)
              omega
            · intro x hx
              rw [next_cell_eq x (hr2 x hx)]
              exact fun h => hsep r hamem x
                (List.mem_append_right _ (List.mem_cons_of_mem _ (List.mem_cons_of_mem _ hx)))
                h.symm
        have hsub : (pre ++ r :: l2r).Sublist (pre ++ r :: n :: l2r) :=
          List.Sublist.append_left (List.Sublist.cons₂ _ (List.sublist_cons_self _ _)) _
        have hsum1 : sumSizes (store (store s.mem r
            (toInt (getSize s.mem r + getSize s.mem n))) (r + 4) (getNext s.mem n)) l2r
            = sumSizes s.mem l2r := sumSizes_congr _ _ _ hcell2
        obtain ⟨s', l2', hml, ⟨d, hd⟩, hch', hhead', hinit', hsum', hpos', hframe'⟩ :=
          ih k { s with mem := store (store s.mem r
              (toInt (getSize s.mem r + getSize s.mem n))) (r + 4) (getNext s.mem n) }
            hchain1 (List.Pairwise.sublist hsub hdec)
            (fun x hx => hrange x (hsub.subset hx))
            (fun x hx y hy => hsep x (hsub.subset hx) y (hsub.subset hy))
            (by simp only [List.length_cons] at hfuel; omega)
            (by rw [hsz1]; omega)
            (fun x hx => by
              have h1 := hpos x (List.mem_cons_of_mem _ hx)
              have h2 := congrArg toInt (hcell2 x hx)
              exact lt_of_lt_of_eq h1 h2.symm)
            (by rw [hsz1, hsum1]; omega)
        refine ⟨s', l2', ?_, ⟨n :: d, by rw [hd]; rfl⟩, hch', hhead', hinit', ?_, hpos', ?_⟩
        · unfold mergeLoop
          rw [hmerge]
          simp only [ne_eq, one_ne_zero, not_false_eq_true, if_true]
          exact hml
        · rw [hsum', hsz1, hsum1]
          simp only [sumSizes]; omega
        · intro c hc1' hc2'
          rw [hframe' c hc1' hc2']
          simp only [store_other _ _ _ _ hc2', store_other _ _ _ _ hc1']
      · have hz1 : getSize s.mem a < a := by omega
        exact ⟨s, n :: l2r, mergeLoop_stop inner k s a pre (n :: l2r) hchain hdec hrange hpre
          hinner hz0 hz1 hc1, ⟨[], rfl⟩, hchain, rfl, rfl, rfl, hz0, fun _ _ _ => rfl⟩


/-- Two blocks of a stack are the same block or lie apart. -/
theorem stacked_gap (B : Int) (l : List (Int × Int)) (hst : Stacked B l)
    (h : ∀ b ∈ l, 4 ≤ b.2 ∧ 4 ∣ b.2) :
    ∀ b ∈ l, ∀ c ∈ l, b = c ∨ b.1 + b.2 + sizeofHeader ≤ c.1
      ∨ c.1 + c.2 + sizeofHeader ≤ b.1 := by
  induction l with
  | nil => intro b hb; cases hb
  | cons d ds ih =>
    have hds : ∀ x ∈ ds, 4 ≤ x.2 ∧ 4 ∣ x.2 := fun x hx => h x (List.mem_cons_of_mem _ hx)
    have hbd := stacked_bounds B ds hst.2 hds
    have hd := hst.1
    intro b hb c hc
    rcases List.mem_cons.1 hb with hb | hb
    · rcases List.mem_cons.1 hc with hc | hc
      · left; rw [hb, hc]
      · right; right
        have := (hbd c hc).2
        rw [hb]; omega
    · rcases List.mem_cons.1 hc with hc | hc
      · right; left
        have := (hbd b hb).2
        rw [hc]; omega
      · exact ih hst.2 hds b hb c hc

/-- Block starts lie in `[B, B + totalBlocks]`. -/
theorem isStart_bounds (B : Int) (blocks : List (Int × Int)) (hst : Stacked B blocks)
    (h : ∀ b ∈ blocks, 4 ≤ b.2 ∧ 4 ∣ b.2) (x : Int) (hx : IsStart B blocks x) :
    B ≤ x ∧ x ≤ B + totalBlocks blocks := by
  have hnn := totalBlocks_nonneg blocks h
  rcases hx with hx | ⟨b, hb, hx⟩
  · omega
  · have h1 := stacked_bounds B blocks hst h b hb
    have h2 := (h b hb).1
    simp only [sizeofHeader] at h1 hx
    omega

/-- Two block starts are equal or at least twelve bytes apart. -/
theorem isStart_gap (B : Int) (blocks : List (Int × Int)) (hst : Stacked B blocks)
    (h : ∀ b ∈ blocks, 4 ≤ b.2 ∧ 4 ∣ b.2) (x y : Int)
    (hx : IsStart B blocks x) (hy : IsStart B blocks y) :
    x = y ∨ x + 12 ≤ y ∨ y + 12 ≤ x := by
  have hbd := stacked_bounds B blocks hst h
  have hgap := stacked_gap B blocks hst h
  simp only [sizeofHeader] at hbd hgap
  rcases hx with hx | ⟨b, hb, hx⟩
  · rcases hy with hy | ⟨c, hc, hy⟩
    · left; omega
    · have h1 := hbd c hc
      have h2 := (h c hc).1
      simp only [sizeofHeader] at hy
      omega
  · rcases hy with hy | ⟨c, hc, hy⟩
    · have h1 := hbd b hb
      have h2 := (h b hb).1
      simp only [sizeofHeader] at hx
      omega
    · have h1 := (h b hb).1
      have h2 := (h c hc).1
      simp only [sizeofHeader] at hx hy
      rcases hgap b hb c hc with h3 | h3 | h3
      · left; rw [hx, hy, h3]
      · omega
      · omega

/-- Releasing the block with pointer `p` takes its bytes off the total. -/
theorem totalBlocks_filter (p r : Int) (l : List (Int × Int))
    (hstrict : l.Pairwise (fun a b => b.1 < a.1)) (hp : (p, r) ∈ l) :
    totalBlocks (l.filter (fun b => b.1 ≠ p)) = totalBlocks l - (r + sizeofHeader) := by
  induction l with
  | nil => cases hp
  | cons c cs ih =>
    obtain ⟨hc, hcs⟩ := List.pairwise_cons.1 hstrict
    rcases List.mem_cons.1 hp with hp | hp
    · have hall : cs.filter (fun b => b.1 ≠ p) = cs := by
        rw [List.filter_eq_self]
        intro b hb
        have := hc b hb
        rw [← hp] at this
        simp only [ne_eq, decide_not, Bool.not_eq_true', decide_eq_false_iff_not]
        simp only at this
        omega
      have hcp : c.1 = p := by rw [← hp]
      simp only [List.filter_cons, hcp, ne_eq, not_true_eq_false, decide_False,
        Bool.false_eq_true, if_false]
      simp only [ne_eq] at hall
      rw [hall]
      simp only [totalBlocks, ← hp]
      omega
    · have hcp : c.1 ≠ p := by
        have := hc (p, r) hp
        simp only at this
        omega
      simp only [List.filter_cons, ne_eq, hcp, not_false_eq_true, decide_True, if_true,
        totalBlocks]
      have := ih hcs hp
      simp only [ne_eq] at this
      rw [this]
      omega


/-- One `Mem_Free` call on a block that is still allocated, in a run of
allocations followed by frees on a region that is not longer than its base
address: the call returns `0`, the free list stays strictly decreasing with the
node after the stack as head, and the node of the freed block is in the
list. -/
theorem freePhase_step (fuel : Nat) (B R : Int) (blocks : List (Int × Int)) (run : Run)
    (fl : List Int) (p r : Int)
    (hB0 : 0 < B) (hBR : B + R ≤ 4294967296) (hRB : R ≤ B) (hint : R < 2147483648)
    (hst : Stacked B blocks) (hsz : ∀ b ∈ blocks, 4 ≤ b.2 ∧ 4 ∣ b.2)
    (hroom : totalBlocks blocks + sizeofNode ≤ R)
    (hinv : FreePhase B blocks run fl) (hp : (p, r) ∈ run.live)
    (hfuel : fl.length + 1 < fuel) :
    ∃ run' fl', stepCall fuel run (.free p) = .ok run' ∧ FreePhase B blocks run' fl'
      ∧ run'.results = run.results ++ [0]
      ∧ run'.live = run.live.filter (fun b => b.1 ≠ p)
      ∧ (p - sizeofHeader) ∈ fl' ∧ fl'.length ≤ fl.length + 1 := by
  have hgapS := isStart_gap B blocks hst hsz
  have hbdS := isStart_bounds B blocks hst hsz
  have hnnB := totalBlocks_nonneg blocks hsz
  have hpb := hinv.sub _ hp
  have hr4 := (hsz _ hpb).1
  have hpbd := stacked_bounds B blocks hst hsz _ hpb
  simp only [sizeofHeader, sizeofNode] at hpbd hroom
  -- the node of the freed block
  have haS : IsStart B blocks (p - 8) := Or.inr ⟨(p, r), hpb, rfl⟩
  have hTS : IsStart B blocks (B + totalBlocks blocks) := Or.inl rfl
  have hflS : ∀ x ∈ fl, IsStart B blocks x := fun x hx => Or.inr (hinv.freed x hx).1
  have hLS : ∀ x ∈ (B + totalBlocks blocks) :: fl, IsStart B blocks x := by
    intro x hx
    rcases List.mem_cons.1 hx with hx | hx
    · rw [hx]; exact hTS
    · exact hflS x hx
  have hafl : ∀ x ∈ fl, x ≠ p - 8 := by
    intro x hx h
    exact (hinv.freed x hx).2 (p, r) hp h.symm
  have haL : (p - 8) ∉ (B + totalBlocks blocks) :: fl := by
    intro h
    rcases List.mem_cons.1 h with h | h
    · omega
    · exact hafl _ h rfl
  have hLgap : ∀ x ∈ (B + totalBlocks blocks) :: fl, x + 12 ≤ p - 8 ∨ p - 8 + 12 ≤ x := by
    intro x hx
    rcases hgapS x (p - 8) (hLS x hx) haS with h | h | h
    · exact absurd (h ▸ hx) haL
    · exact Or.inl h
    · exact Or.inr h
  have hLrange : InRange ((B + totalBlocks blocks) :: fl) := by
    intro x hx
    have := hbdS x (hLS x hx)
    omega
  have harange : 0 < p - 8 ∧ p - 8 + 4 < 4294967296 := by omega
  have hacell : toUInt (p - 8 + 4) = p - 8 + 4 := next_cell_eq _ harange
  have hau : toUInt (p - sizeofHeader) = p - 8 := by
    simp only [sizeofHeader]; unfold toUInt; omega
  obtain ⟨hsizeA, htagA⟩ := hinv.headers _ hp
  simp only [sizeofHeader] at hsizeA htagA
  have hv : toInt (toUInt (getSize run.state.mem (p - 8)) + sizeofHeader) = r + 8 := by
    rw [hsizeA]
    simp only [sizeofHeader]; unfold toInt toUInt; omega
  -- the state handed to `insertNode`
  have hchain0 : IsChain (store (store run.state.mem (p - 8) (r + 8)) (p - 8 + 4) 0)
      run.state.head ((B + totalBlocks blocks) :: fl) := by
    refine isSeg_store _ _ _ _ _ _ ?_ (isSeg_store _ _ _ _ _ _ ?_ hinv.chain)
    · intro x hx
      rw [next_cell_eq x (hLrange x hx)]
      have := hLgap x hx
      omega
    · intro x hx
      rw [next_cell_eq x (hLrange x hx)]
      have := hLgap x hx
      omega
  have hnext0 : getNext (store (store run.state.mem (p - 8) (r + 8)) (p - 8 + 4) 0) (p - 8)
      = 0 := by
    simp only [getNext, hacell, store_same]; rfl
  obtain ⟨s1, l1, l2, hins, hl, h1, h2, hchain1, hhead1, hinit1, _, hframe1⟩ :=
    insertNode_spec fuel
      { run.state with mem := store (store run.state.mem (p - 8) (r + 8)) (p - 8 + 4) 0 }
      (p - 8) ((B + totalBlocks blocks) :: fl) hchain0 (by simp) hinv.dec hLrange harange haL
      hnext0 (by simp only [List.length_cons]; omega)
  -- the head stays in front of the freed node
  cases l1 with
  | nil =>
    exfalso
    have : B + totalBlocks blocks ∈ l2 := by
      rw [List.nil_append] at hl; rw [← hl]; exact List.mem_cons_self _ _
    have := h2 _ this
    omega
  | cons t l1r =>
    rw [List.cons_append] at hl
    obtain ⟨ht, hfl⟩ := List.cons.inj hl
    subst ht
    simp only [if_neg (List.cons_ne_nil _ _)] at hhead1
    have hmemL : ∀ x, x ∈ (B + totalBlocks blocks) :: l1r ++ (p - 8) :: l2 →
        x = p - 8 ∨ x ∈ (B + totalBlocks blocks) :: fl := by
      intro x hx
      rw [hfl]
      simp only [List.mem_append, List.mem_cons] at hx ⊢
      tauto
    have hallS : ∀ x ∈ (B + totalBlocks blocks) :: l1r ++ (p - 8) :: l2, IsStart B blocks x := by
      intro x hx
      rcases hmemL x hx with h | h
      · rw [h]; exact haS
      · exact hLS x h
    have hdec1 : Decreasing ((B + totalBlocks blocks) :: l1r ++ (p - 8) :: l2) :=
      decreasing_insert (p - 8) _ l2 (by rw [List.cons_append, ← hfl]; exact hinv.dec) h1 h2
    have hrange1 : InRange ((B + totalBlocks blocks) :: l1r ++ (p - 8) :: l2) := by
      intro x hx
      have := hbdS x (hallS x hx)
      omega
    have hsep1 : Separated ((B + totalBlocks blocks) :: l1r ++ (p - 8) :: l2) := by
      intro x hx y hy
      have := hgapS x y (hallS x hx) (hallS y hy)
      omega
    -- memory seen by the merge loop
    have hflmem : ∀ x ∈ fl, s1.mem x = run.state.mem x := by
      intro x hx
      have hxL : x ∈ (B + totalBlocks blocks) :: fl := List.mem_cons_of_mem _ hx
      have hg := hLgap x hxL
      rw [hframe1 x (by omega) (fun y hy => by
        have := hgapS x y (hLS x hxL) (hLS y hy); omega)]
      show store (store run.state.mem (p - 8) (r + 8)) (p - 8 + 4) 0 x = _
      rw [store_other _ _ _ _ (by omega), store_other _ _ _ _ (by omega)]
    have hamem1 : s1.mem (p - 8) = r + 8 := by
      rw [hframe1 (p - 8) (by omega) (fun y hy => by have := hLgap y hy; omega)]
      show store (store run.state.mem (p - 8) (r + 8)) (p - 8 + 4) 0 (p - 8) = _
      rw [store_other _ _ _ _ (by omega), store_same]
    have hasize1 : getSize s1.mem (p - 8) = r + 8 := by
      simp only [getSize, hamem1]; unfold toInt; omega
    have hl2fl : ∀ x ∈ l2, x ∈ fl := fun x hx => by
      rw [hfl]; exact List.mem_append_right _ hx
    have hl1fl : ∀ x ∈ l1r, x ∈ fl := fun x hx => by
      rw [hfl]; exact List.mem_append_left _ hx
    have hsum_l2 : sumSizes s1.mem l2 = sumSizes run.state.mem l2 :=
      sumSizes_congr _ _ _ (fun x hx => hflmem x (hl2fl x hx))
    have hsplit : sumSizes run.state.mem fl
        = sumSizes run.state.mem l1r + sumSizes run.state.mem l2 := by
      rw [hfl, sumSizes_append]
    have hnn1 := sumSizes_nonneg run.state.mem l1r (fun x hx => hinv.pos x (hl1fl x hx))
    have hfilt := totalBlocks_filter p r run.live hinv.strict hp
    have hnnF := totalBlocks_nonneg (run.live.filter (fun b => b.1 ≠ p))
      (fun b hb => hsz b (hinv.sub b (List.mem_of_mem_filter hb)))
    have hsumI := hinv.sum
    simp only [sizeofHeader] at hfilt
    have hlen : fl.length = l1r.length + l2.length := by rw [hfl, List.length_append]
    obtain ⟨s2, l2r, hml, ⟨d, hd⟩, hchain2, hhead2, hinit2, hsum2, hpos2, hframe2⟩ :=
      mergeLoop_absorbs fuel (p - 8) ((B + totalBlocks blocks) :: l1r) (R - 8)
        (List.cons_ne_nil _ _) (by simp only [List.length_cons]; omega) (by omega) (by omega)
        l2 fuel s1 hchain1 hdec1 hrange1 hsep1 (by omega) (by rw [hasize1]; omega)
        (fun x hx => by
          have h3 := hinv.pos x (hl2fl x hx)
          have h4 := congrArg toInt (hflmem x (hl2fl x hx))
          exact lt_of_lt_of_eq h3 h4.symm)
        (by rw [hasize1, hsum_l2]; omega)
    have hl2r : ∀ x ∈ l2r, x ∈ l2 := fun x hx => by
      rw [hd]; exact List.mem_append_right _ hx
    have hmem2 : ∀ c, c ≠ p - 8 → c ≠ p - 8 + 4 →
        (∀ y ∈ (B + totalBlocks blocks) :: fl, c ≠ y + 4) → s2.mem c = run.state.mem c := by
      intro c hc1 hc2 hc3
      rw [hframe2 c hc1 hc2, hframe1 c hc2 hc3]
      show store (store run.state.mem (p - 8) (r + 8)) (p - 8 + 4) 0 c = _
      rw [store_other _ _ _ _ hc2, store_other _ _ _ _ hc1]
    have hflmem2 : ∀ x ∈ fl, s2.mem x = run.state.mem x := by
      intro x hx
      have hxL : x ∈ (B + totalBlocks blocks) :: fl := List.mem_cons_of_mem _ hx
      have hg := hLgap x hxL
      exact hmem2 x (by omega) (by omega) (fun y hy => by
        have := hgapS x y (hLS x hxL) (hLS y hy); omega)
    have hfree : Mem_Free fuel run.state p = .ok (0, s2) := by
      unfold Mem_Free
      rw [if_neg (by omega : ¬ p = 0), if_neg (by simp [hinv.init])]
      simp only [hau]
      rw [if_neg (by simp [htagA])]
      simp only [setNext, setSize, hacell, hv, hins, hml]
    refine ⟨{ state := s2, results := run.results ++ [0],
              live := run.live.filter (fun b => b.1 ≠ p),
              disciplined := run.disciplined && run.live.any (fun b => b.1 = p) },
      l1r ++ (p - 8) :: l2r, ?_, ?_, rfl, rfl, ?_, ?_⟩
    · simp only [stepCall, hfree, if_true]
    · refine ⟨?_, ?_, ?_, ?_, ?_, ?_, ?_, ?_, ?_, ?_, ?_⟩
      · show s2.memHasInit = 1
        rw [hinit2, hinit1]; exact hinv.init
      · show s2.head = _
        rw [hhead2, hhead1]; exact hinv.head
      · show IsChain s2.mem s2.head _
        exact hchain2
      · have hsub : ((B + totalBlocks blocks) :: (l1r ++ (p - 8) :: l2r)).Sublist
            ((B + totalBlocks blocks) :: l1r ++ (p - 8) :: l2) := by
          rw [hd, List.cons_append]
          exact List.Sublist.cons₂ _ (List.Sublist.append_left
            (List.Sublist.cons₂ _ (List.sublist_append_right _ _)) _)
        exact List.Pairwise.sublist hsub hdec1
      · intro b hb
        exact hinv.sub b (List.mem_of_mem_filter hb)
      · exact List.Pairwise.filter _ hinv.strict
      · intro x hx
        rcases List.mem_append.1 hx with hx | hx
        · refine ⟨(hinv.freed x (hl1fl x hx)).1, fun c hc =>
            (hinv.freed x (hl1fl x hx)).2 c (List.mem_of_mem_filter hc)⟩
        · rcases List.mem_cons.1 hx with hx | hx
          · refine ⟨⟨(p, r), hpb, by rw [hx]; rfl⟩, ?_⟩
            intro c hc
            have := (List.mem_filter.1 hc).2
            simp only [ne_eq, decide_not, Bool.not_eq_true', decide_eq_false_iff_not] at this
            simp only [sizeofHeader]
            omega
          · refine ⟨(hinv.freed x (hl2fl x (hl2r x hx))).1, fun c hc =>
              (hinv.freed x (hl2fl x (hl2r x hx))).2 c (List.mem_of_mem_filter hc)⟩
      · intro b hb
        have hbl := List.mem_of_mem_filter hb
        have hbp := (List.mem_filter.1 hb).2
        simp only [ne_eq, decide_not, Bool.not_eq_true', decide_eq_false_iff_not] at hbp
        have hbS : IsStart B blocks (b.1 - 8) := Or.inr ⟨b, hinv.sub b hbl, rfl⟩
        have hbbd := hbdS _ hbS
        have hbg := hgapS _ _ hbS haS
        have hbL : ∀ y ∈ (B + totalBlocks blocks) :: fl, b.1 - 8 ≠ y ∧
            (b.1 - 8 + 12 ≤ y ∨ y + 12 ≤ b.1 - 8) := by
          intro y hy
          have hne : b.1 - 8 ≠ y := by
            rcases List.mem_cons.1 hy with hy | hy
            · have := stacked_bounds B blocks hst hsz b (hinv.sub b hbl)
              have := (hsz b (hinv.sub b hbl)).1
              simp only [sizeofHeader] at *
              omega
            · exact (hinv.freed y hy).2 b hbl
          have := hgapS _ _ hbS (hLS y hy)
          exact ⟨hne, by omega⟩
        have hc1 : s2.mem (b.1 - 8) = run.state.mem (b.1 - 8) :=
          hmem2 _ (by omega) (by omega) (fun y hy => by have := hbL y hy; omega)
        have hc2 : s2.mem (b.1 - 8 + 4) = run.state.mem (b.1 - 8 + 4) :=
          hmem2 _ (by omega) (by omega) (fun y hy => by have := hbL y hy; omega)
        have hbcell : toUInt (b.1 - 8 + 4) = b.1 - 8 + 4 := by unfold toUInt; omega
        have hold := hinv.headers b hbl
        simp only [sizeofHeader, getSize, getValCheck, hbcell] at hold ⊢
        rw [hc1, hc2]
        exact hold
      · intro x hx
        rcases List.mem_append.1 hx with hx | hx
        · have h3 := hinv.pos x (hl1fl x hx)
          have h4 := congrArg toInt (hflmem2 x (hl1fl x hx))
          exact lt_of_lt_of_eq h3 h4.symm
        · rcases List.mem_cons.1 hx with hx | hx
          · rw [hx]; exact hpos2
          · have h3 := hinv.pos x (hl2fl x (hl2r x hx))
            have h4 := congrArg toInt (hflmem2 x (hl2fl x (hl2r x hx)))
            exact lt_of_lt_of_eq h3 h4.symm
      · show sumSizes s2.mem (l1r ++ (p - 8) :: l2r)
          + totalBlocks (run.live.filter (fun b => b.1 ≠ p)) = _
        have h5 : sumSizes s2.mem l1r = sumSizes run.state.mem l1r :=
          sumSizes_congr _ _ _ (fun x hx => hflmem2 x (hl1fl x hx))
        rw [sumSizes_append, h5]
        simp only [sumSizes]
        rw [hsum2, hasize1, hsum_l2, hfilt]
        omega
      · show (run.disciplined && run.live.any (fun b => b.1 = p)) = true
        rw [hinv.disc, Bool.true_and, List.any_eq_true]
        exact ⟨(p, r), hp, by simp⟩
    · simp only [sizeofHeader]
      exact List.mem_append_right _ (List.mem_cons_self _ _)
    · rw [hd] at hlen
      simp only [List.length_append, List.length_cons] at hlen ⊢
      omega


/-- In a stack of blocks, newest first, the pointers strictly decrease. -/
theorem stacked_strict (B : Int) (l : List (Int × Int)) (hst : Stacked B l)
    (h : ∀ b ∈ l, 4 ≤ b.2 ∧ 4 ∣ b.2) : l.Pairwise (fun a b => b.1 < a.1) := by
  induction l with
  | nil => exact List.Pairwise.nil
  | cons c cs ih =>
    have hcs : ∀ x ∈ cs, 4 ≤ x.2 ∧ 4 ∣ x.2 := fun x hx => h x (List.mem_cons_of_mem _ hx)
    refine List.Pairwise.cons ?_ (ih hst.2 hcs)
    intro b hb
    have hb2 := (stacked_bounds B cs hst.2 hcs b hb).2
    have hb3 := (hcs b hb).1
    have hc := hst.1
    simp only [sizeofHeader] at hc
    omega

/-- A run of two sequences of calls is the run of the second from the result
of the first. -/
theorem runCalls_append (fuel : Nat) (cs1 cs2 : List Call) :
    ∀ (r r1 : Run), runCalls fuel r cs1 = .ok r1 →
      runCalls fuel r (cs1 ++ cs2) = runCalls fuel r1 cs2 := by
  induction cs1 with
  | nil =>
    intro r r1 h
    simp only [runCalls, Except.ok.injEq] at h
    rw [List.nil_append, h]
  | cons c cs ih =>
    intro r r1 h
    simp only [List.cons_append, runCalls] at h ⊢
    cases hstep : stepCall fuel r c with
    | error e => rw [hstep] at h; cases h
    | ok r2 =>
      rw [hstep] at h
      simp only [hstep]
      exact ih r2 r1 h

/-- Any sequence of `Mem_Free` calls on distinct blocks that are still
allocated, after the allocations: every call returns `0` and the free list
stays strictly decreasing. -/
theorem freePhase_run (fuel : Nat) (B R : Int) (blocks : List (Int × Int))
    (hB0 : 0 < B) (hBR : B + R ≤ 4294967296) (hRB : R ≤ B) (hint : R < 2147483648)
    (hst : Stacked B blocks) (hsz : ∀ b ∈ blocks, 4 ≤ b.2 ∧ 4 ∣ b.2)
    (hroom : totalBlocks blocks + sizeofNode ≤ R) :
    ∀ (fs : List Int) (run : Run) (fl : List Int), FreePhase B blocks run fl →
      fs.Nodup → (∀ p ∈ fs, ∃ r, (p, r) ∈ run.live) → fl.length + fs.length < fuel →
      ∃ run' fl', runCalls fuel run (fs.map Call.free) = .ok run'
        ∧ FreePhase B blocks run' fl'
        ∧ run'.results = run.results ++ List.replicate fs.length 0
        ∧ ∀ p, fs.getLast? = some p → (p - sizeofHeader) ∈ fl' := by
  intro fs
  induction fs with
  | nil =>
    intro run fl hinv _ _ _
    refine ⟨run, fl, rfl, hinv, by simp, ?_⟩
    intro p hp
    simp at hp
  | cons p ps ih =>
    intro run fl hinv hnodup hlive hfuel
    obtain ⟨hpps, hnodup2⟩ := List.nodup_cons.1 hnodup
    obtain ⟨r, hr⟩ := hlive p (List.mem_cons_self _ _)
    simp only [List.length_cons] at hfuel
    obtain ⟨run1, fl1, hstep, hinv1, hres1, hlive1, hmem1, hlen1⟩ :=
      freePhase_step fuel B R blocks run fl p r hB0 hBR hRB hint hst hsz hroom hinv hr
        (by omega)
    have hlive2 : ∀ q ∈ ps, ∃ r, (q, r) ∈ run1.live := by
      intro q hq
      obtain ⟨rq, hrq⟩ := hlive q (List.mem_cons_of_mem _ hq)
      refine ⟨rq, ?_⟩
      rw [hlive1, List.mem_filter]
      refine ⟨hrq, ?_⟩
      have : q ≠ p := fun h => hpps (h ▸ hq)
      simpa using this
    obtain ⟨run2, fl2, hrun2, hinv2, hres2, hlast2⟩ :=
      ih run1 fl1 hinv1 hnodup2 hlive2 (by omega)
    refine ⟨run2, fl2, ?_, hinv2, ?_, ?_⟩
    · simp only [List.map_cons, runCalls, hstep, hrun2]
    · rw [hres2, hres1, List.append_assoc]
      simp only [List.length_cons, List.replicate_succ, List.singleton_append]
    · intro q hq
      cases ps with
      | nil =>
        simp only [List.getLast?_singleton, Option.some.injEq] at hq
        simp only [List.map_nil, runCalls, Except.ok.injEq] at hrun2
        have hfl : fl2 = fl1 := by
          have hc1 := hinv1.chain
          have hc2 := hinv2.chain
          rw [← hrun2] at hc2
          clear hlast2 hres2 ih
          have hlenEq : ∀ (m : Memory) (l l' : List Int) (a : Int), IsSeg m a l 0 →
              IsSeg m a l' 0 → l = l' := by
            intro m l
            induction l with
            | nil =>
              intro l' a h1 h2
              cases l' with
              | nil => rfl
              | cons y ys => exact absurd (h2.1 ▸ h1 : y = 0) h2.2.1
            | cons x xs ihx =>
              intro l' a h1 h2
              cases l' with
              | nil => exact absurd (h1.1 ▸ h2 : x = 0) h1.2.1
              | cons y ys =>
                have hxy : x = y := h1.1.symm.trans h2.1
                subst hxy
                rw [ihx ys _ h1.2.2 h2.2.2]
          exact (List.cons.inj (hlenEq _ _ _ _ hc2 hc1)).2
        rw [hfl, ← hq]
        exact hmem1
      | cons q1 qs =>
        rw [List.getLast?_cons_cons] at hq
        exact hlast2 q hq


/-- The lowest node of a strictly decreasing list is its last node. -/
theorem lastOr_lowest (a : Int) (l : List Int) (hdec : Decreasing l) (ha : a ∈ l)
    (hlow : ∀ x ∈ l, a ≤ x) : ∀ d, lastOr d l = a := by
  induction l with
  | nil => cases ha
  | cons x xs ih =>
    intro d
    cases xs with
    | nil =>
      simp only [List.mem_singleton] at ha
      simp only [lastOr, ha]
    | cons y ys =>
      obtain ⟨hx, hxs⟩ := List.pairwise_cons.1 hdec
      have hy := hx y (List.mem_cons_self _ _)
      have hay := hlow y (List.mem_cons_of_mem _ (List.mem_cons_self _ _))
      rcases List.mem_cons.1 ha with ha | ha
      · omega
      · exact ih hxs ha (fun z hz => hlow z (List.mem_cons_of_mem _ hz)) x

/-- The run that starts on a region fresh from `Mem_Init` has the shape of an
allocate-only run. -/
theorem allocOnly_fresh (page B : Int) (s : State) (region_size policy R : Int)
    (hrs : 0 < region_size) (hpol : policy = 1 ∨ policy = 2 ∨ policy = 3)
    (hpage : 0 < page) (hinit : s.memHasInit = 0)
    (hdvd : page ∣ R) (hge : region_size ≤ R) (hleast : R < region_size + page)
    (hint : R < 2147483648) (hR8 : sizeofNode ≤ R)
    (hB0 : 0 < B) (hBR : B + R ≤ 4294967296) :
    AllocOnly B R ⟨(Mem_Init page B s region_size policy).2, [], [], true⟩ := by
  unfold sizeofNode at hR8
  obtain ⟨s0, hs0, hhead, hnext, hsize, _, hp, hi, _⟩ :=
    Mem_Init_fresh page B s region_size policy R hrs hpol hpage hinit hdvd hge hleast hint
      hB0 (by omega)
  rw [hs0]
  refine ⟨hi, by rw [hp]; exact hpol, ?_, hnext, ?_, ?_, trivial, ?_, rfl, ?_, rfl⟩
  · simp only [totalBlocks]; rw [hhead]; omega
  · simp only [totalBlocks]; rw [hsize]; omega
  · simp only [totalBlocks, sizeofNode]; omega
  · intro b hb; cases hb
  · intro b hb; cases hb

/-- C11, amended: on a region of `R` bytes at base `B` fresh from `Mem_Init`,
with `R <= B`, every sequence of `Mem_Alloc` calls followed by `Mem_Free` calls
on distinct non-null pointers that these allocations returned runs to the end
(with fuel beyond the number of frees); every `Mem_Free` returns `0`; and in
the state reached the free list is a `NULL`-terminated list `l` in strictly
decreasing address order: each node's address is larger than the address of its
`next` node. The node of the block freed last is in the list, below the head,
and when it has the lowest address of all free nodes it is the last node. -/
theorem C11_frees_keep_decreasing_order (fuel : Nat) (page B : Int) (s : State)
    (region_size policy R : Int) (ns fs : List Int)
    (hrs : 0 < region_size) (hpol : policy = 1 ∨ policy = 2 ∨ policy = 3)
    (hpage : 0 < page) (hinit : s.memHasInit = 0)
    (hdvd : page ∣ R) (hge : region_size ≤ R) (hleast : R < region_size + page)
    (hint : R < 2147483648) (hR8 : sizeofNode ≤ R)
    (hB0 : 0 < B) (hBR : B + R ≤ 4294967296) (hRB : R ≤ B)
    (hns : ∀ n ∈ ns, 0 < n ∧ n < 2147483648)
    (hnodup : fs.Nodup)
    (hfs : ∀ p ∈ fs, p ≠ 0 ∧ p ∈ allocResults fuel
      ⟨(Mem_Init page B s region_size policy).2, [], [], true⟩ ns)
    (hfuel : fs.length < fuel) :
    ∃ run l, runCalls fuel ⟨(Mem_Init page B s region_size policy).2, [], [], true⟩
        (ns.map Call.alloc ++ fs.map Call.free) = .ok run
      ∧ run.disciplined = true
      ∧ run.results = allocResults fuel
          ⟨(Mem_Init page B s region_size policy).2, [], [], true⟩ ns
          ++ List.replicate fs.length 0
      ∧ IsChain run.state.mem run.state.head l
      ∧ Decreasing l
      ∧ ∀ p, fs.getLast? = some p →
          (p - sizeofHeader) ∈ l ∧ p - sizeofHeader < run.state.head
          ∧ ((∀ x ∈ l, p - sizeofHeader ≤ x) → lastOr 0 l = p - sizeofHeader) := by
  have hinv0 := allocOnly_fresh page B s region_size policy R hrs hpol hpage hinit hdvd hge
    hleast hint hR8 hB0 hBR
  obtain ⟨runA, hrunA, hinvA⟩ := allocOnly_run fuel B R hB0 hBR ns _ hinv0 hns
  have hres : allocResults fuel ⟨(Mem_Init page B s region_size policy).2, [], [], true⟩ ns
      = runA.results := by
    simp only [allocResults, hrunA]
  have hroom := hinvA.room
  have hT0 : B + totalBlocks runA.live ≠ 0 := by
    have := totalBlocks_nonneg runA.live hinvA.sizes
    omega
  have hfp : FreePhase B runA.live runA [] := by
    refine ⟨hinvA.init, hinvA.head, ⟨hinvA.head, hT0, ?_⟩, List.pairwise_singleton _ _,
      fun b hb => hb, stacked_strict B runA.live hinvA.stacked hinvA.sizes,
      (fun x hx => by cases hx), hinvA.headers, (fun x hx => by cases hx), ?_, hinvA.disc⟩
    · rw [← hinvA.head]; exact hinvA.next
    · simp only [sumSizes]; omega
  have hlive : ∀ p ∈ fs, ∃ r, (p, r) ∈ runA.live := by
    intro p hp
    obtain ⟨hp0, hpr⟩ := hfs p hp
    rw [hres] at hpr
    have hmem : p ∈ runA.results.filter (fun q => decide (q ≠ 0)) := by
      rw [List.mem_filter]
      exact ⟨hpr, by simpa using hp0⟩
    rw [hinvA.returned, List.mem_reverse, List.mem_map] at hmem
    obtain ⟨b, hb, hbp⟩ := hmem
    exact ⟨b.2, by rw [← hbp]; exact hb⟩
  obtain ⟨run, fl, hrun, hinv, hresults, hlast⟩ :=
    freePhase_run fuel B R runA.live hB0 hBR hRB hint hinvA.stacked hinvA.sizes
      (by simp only [sizeofNode] at hroom ⊢; omega) fs runA [] hfp hnodup hlive
      (by simpa using hfuel)
  refine ⟨run, (B + totalBlocks runA.live) :: fl, ?_, hinv.disc, ?_, hinv.chain, hinv.dec, ?_⟩
  · rw [runCalls_append fuel _ _ _ runA hrunA]
    exact hrun
  · rw [hres]; exact hresults
  · intro p hp
    have hmem := hlast p hp
    have hbelow := (List.pairwise_cons.1 hinv.dec).1 _ hmem
    refine ⟨List.mem_cons_of_mem _ hmem, by rw [hinv.head]; exact hbelow, ?_⟩
    intro hlow
    exact lastOr_lowest _ _ hinv.dec (List.mem_cons_of_mem _ hmem) hlow 0

/-- C11, amended, at a concrete input: a 4096-byte region at `base`, policy 1,
two allocations of 100 bytes and the release of the first block. -/
theorem C11_frees_keep_decreasing_order_witness :
    ∃ run l, runCalls 2 ⟨(Mem_Init 4096 base State.start 4096 1).2, [], [], true⟩
        ([100, 100].map Call.alloc ++ [base + 8].map Call.free) = .ok run
      ∧ run.disciplined = true
      ∧ run.results = allocResults 2
          ⟨(Mem_Init 4096 base State.start 4096 1).2, [], [], true⟩ [100, 100]
          ++ List.replicate [base + 8].length 0
      ∧ IsChain run.state.mem run.state.head l
      ∧ Decreasing l
      ∧ ∀ p, [base + 8].getLast? = some p →
          (p - sizeofHeader) ∈ l ∧ p - sizeofHeader < run.state.head
          ∧ ((∀ x ∈ l, p - sizeofHeader ≤ x) → lastOr 0 l = p - sizeofHeader) :=
  C11_frees_keep_decreasing_order 2 4096 base State.start 4096 1 4096 [100, 100] [base + 8]
    (by decide) (by decide) (by decide) (by decide) (by decide) (by decide) (by decide)
    (by decide) (by decide) (by decide) (by decide) (by decide) (by decide) (by decide)
    (by decide) (by decide)

/-! ## `split` after a free -/

/-- C18 fails on the code when the remainder lands on another free node: after
`Mem_Init(4096, 2)`, `p = Mem_Alloc(100)` and `Mem_Free(p)` the free list is
`base + 108` (size 3980) followed by `base`, and the node `base` has size
`S = 108` and successor `X = NULL`. `Mem_Alloc(100)` then splits the node
`base` with `r = 100`: the header at `base` gets size 100 and tag `MAGIC` and
the call returns `base + sizeof(header)`, but the remainder node, written at
`base + 108` where the predecessor of `base` lives, changes that node's size
from 3980 to `S - r - sizeof(header) = 0`, and the relink stores `base + 108`
into its own `next` field, so the successor of the remainder is the remainder
itself, not `X`, and the list no longer reaches `NULL`. The last part is
`split` alone on that state: the remainder address is `base + 108`, with size
0 and successor `X = NULL` until the relink. -/
theorem C18_remainder_overwrites_predecessor :
    observe (runCalls 16 (afterInit base 4096 P_WORSTFIT) [.alloc 100, .free (base + 8)])
      = some ⟨[base + 8, 0], true, [], some [(base + 108, 3980), (base, 108)]⟩
    ∧ (runCalls 16 (afterInit base 4096 P_WORSTFIT)
        [.alloc 100, .free (base + 8)]).toOption.map
          (fun r => (getSize r.state.mem base, getNext r.state.mem base))
      = some (108, 0)
    ∧ observe (runCalls 16 (afterInit base 4096 P_WORSTFIT)
        [.alloc 100, .free (base + 8), .alloc 100])
      = some ⟨[base + 8, 0, base + 8], true, [(base + 8, 100)], none⟩
    ∧ (runCalls 16 (afterInit base 4096 P_WORSTFIT)
        [.alloc 100, .free (base + 8), .alloc 100]).toOption.map
          (fun r => (r.state.head, getSize r.state.mem (base + 108),
            getNext r.state.mem (base + 108), getSize r.state.mem base,
            getValCheck r.state.mem base))
      = some (base + 108, 0, base + 108, 100, MAGIC)
    ∧ (runCalls 16 (afterInit base 4096 P_WORSTFIT)
        [.alloc 100, .free (base + 8)]).toOption.map
          (fun r => ((split r.state.mem base 100).1,
            getSize (split r.state.mem base 100).2 (base + 108),
            getNext (split r.state.mem base 100).2 (base + 108)))
      = some (base + 108, 0, 0) := by
  decide

end Mem2
